import Mathlib

/-!
Verification development for the excel_reader repository.

The grid-analysis pipeline (grid_builder.py, block_splitter.py,
header_parser.py, cleaner.py, parser.py, file_reader.py) is shallowly
embedded below: numpy matrices become lists of lists of naturals,
floats become rationals, and fallible code returns Except.
-/

set_option allowUnsafeReducibility true

attribute [semireducible] Rat.add Rat.mul Rat.inv Rat.sub Rat.neg

namespace ExcelReader

/-- Occupancy and type matrices: `O` and `T` in grid_builder.py are
2-D numpy integer arrays; we embed them as lists of rows. -/
abbrev Mat := List (List Nat)

/-- Number of rows, mirroring `O.shape[0]`. -/
def Mat.nRows (M : Mat) : Nat := M.length

/-- Number of columns, mirroring `O.shape[1]` of a rectangular numpy array. -/
def Mat.nCols (M : Mat) : Nat := (M.headD []).length

/-- Cell access `O[r, c]`; out-of-range reads yield 0 (numpy never reads
out of range in the translated code; the default only pads ragged data). -/
def Mat.get (M : Mat) (r c : Nat) : Nat := (M.getD r []).getD c 0

/-- A rectangular matrix: every row has length `nCols` (numpy arrays are
always rectangular). -/
def Mat.Rect (M : Mat) : Prop := ∀ row ∈ M, row.length = M.nCols

instance (M : Mat) : Decidable M.Rect := List.decidableBAll _ M

/-- Border matrix `B[r, c]` of grid_builder.build_border_matrix: per cell a
4-vector of 0/1 flags in the order top, right, bottom, left. -/
abbrev BMat := List (List (List Nat))

/-- `B.shape[0]`. -/
def BMat.nRows (B : BMat) : Nat := B.length

/-- `B.shape[1]`. -/
def BMat.nCols (B : BMat) : Nat := (B.headD []).length

/-- The 4-vector `B[r, c]`. -/
def BMat.cell (B : BMat) (r c : Nat) : List Nat := (B.getD r []).getD c []

/-- Flag `B[r, c][i]`. -/
def BMat.flag (B : BMat) (r c i : Nat) : Nat := (B.cell r c).getD i 0

/-- Style matrix `S` of grid_builder.build_style_matrix (float entries). -/
abbrev QMat := List (List ℚ)

/-- `S.shape[0]`. -/
def QMat.nRows (S : QMat) : Nat := S.length

/-- `S.shape[1]`. -/
def QMat.nCols (S : QMat) : Nat := (S.headD []).length

/-- Cell access `S[r, c]`. -/
def QMat.get (S : QMat) (r c : Nat) : ℚ := (S.getD r []).getD c 0

/-- models.FileFormat. -/
inductive FileFormat where
  | xlsx
  | xlsb
  | csv
deriving DecidableEq

/-- block_splitter.Block: half-open bbox plus identifier. -/
structure Block where
  r0 : Nat
  r1 : Nat
  c0 : Nat
  c1 : Nat
  block_id : String := ""
deriving DecidableEq

/-- Block.height. -/
def Block.height (b : Block) : Nat := b.r1 - b.r0

/-- Block.width. -/
def Block.width (b : Block) : Nat := b.c1 - b.c0

/-- Block.area. -/
def Block.area (b : Block) : Nat := b.height * b.width

/-- config.ParserConfig, restricted to the fields the embedded pipeline
reads.  Dimension and tolerance fields are sizes, hence naturals; float
fields become rationals. -/
structure ParserConfig where
  min_block_height : Nat
  min_block_width : Nat
  hole_tolerance_rows : Nat
  hole_tolerance_cols : Nat
  density_threshold : ℚ
  rectangularity_threshold : ℚ
  mdl_weights : ℚ × ℚ × ℚ
  max_header_rows : Nat
  header_style_weight : ℚ
  keep_leaf_only : Bool
deriving DecidableEq

/-- `np.sum(O[b.r0:b.r1, b.c0:b.c1])`: numpy slicing clips to the array
bounds, and out-of-range cells read as 0 here, so the straight double sum
agrees with the clipped slice sum. -/
def regionSum (O : Mat) (b : Block) : Nat :=
  ((List.range' b.r0 (b.r1 - b.r0)).map (fun r =>
    ((List.range' b.c0 (b.c1 - b.c0)).map (fun c => O.get r c)).sum)).sum

/-- The offsets `range(-(t+1), t+2)` of the BFS neighbourhood scan. -/
def offsetRange (t : Nat) : List Int :=
  (List.range (2 * t + 3)).map (fun i => (i : Int) - (t + 1))

/-- The in-bounds neighbours scanned from `(r, c)` in
BlockSplitter._bfs_connected: all offsets within the hole-tolerance
rectangle except the origin, kept only when inside the grid. -/
def neighbors (tr tc nRows nCols r c : Nat) : List (Nat × Nat) :=
  (offsetRange tr).flatMap (fun dr =>
    (offsetRange tc).filterMap (fun dc =>
      if dr = 0 ∧ dc = 0 then none
      else
        let nr : Int := (r : Int) + dr
        let nc : Int := (c : Int) + dc
        if 0 ≤ nr ∧ nr < (nRows : Int) ∧ 0 ≤ nc ∧ nc < (nCols : Int) then
          some (nr.toNat, nc.toNat)
        else none))

/-- One BFS round of BlockSplitter._bfs_connected: pop the queue head,
extend the running min/max bounds, and push every yet-unvisited occupied
neighbour.  `fuel` bounds the number of pops; `O.nRows * O.nCols + 1`
always drains the queue because each push marks a fresh cell visited. -/
def bfsLoop (O : Mat) (tr tc nRows nCols : Nat) :
    Nat → List (Nat × Nat) → List (Nat × Nat) → Nat × Nat × Nat × Nat →
    List (Nat × Nat) × (Nat × Nat × Nat × Nat)
  | 0, visited, _, bounds => (visited, bounds)
  | _ + 1, visited, [], bounds => (visited, bounds)
  | fuel + 1, visited, (r, c) :: rest, (minR, maxR, minC, maxC) =>
    let bounds := (min minR r, max maxR r, min minC c, max maxC c)
    let step := (neighbors tr tc nRows nCols r c).foldl
      (fun (acc : List (Nat × Nat) × List (Nat × Nat)) p =>
        if O.get p.1 p.2 = 1 ∧ p ∉ acc.1 then (p :: acc.1, acc.2 ++ [p]) else acc)
      (visited, rest)
    bfsLoop O tr tc nRows nCols fuel step.1 step.2 bounds

/-- BlockSplitter._bfs_connected: BFS from `(sr, sc)`, then expand the
component's min/max bounds by the hole tolerances, clamped to the grid
(`max 0 x` is natural truncated subtraction here). -/
def bfsConnected (cfg : ParserConfig) (O : Mat) (visited : List (Nat × Nat))
    (sr sc : Nat) : List (Nat × Nat) × Block :=
  let nRows := O.nRows
  let nCols := O.nCols
  let out := bfsLoop O cfg.hole_tolerance_rows cfg.hole_tolerance_cols nRows nCols
    (nRows * nCols + 1) ((sr, sc) :: visited) [(sr, sc)] (sr, sr, sc, sc)
  let b := out.2
  ( out.1,
    { r0 := b.1 - cfg.hole_tolerance_rows
      r1 := min nRows (b.2.1 + cfg.hole_tolerance_rows + 1)
      c0 := b.2.2.1 - cfg.hole_tolerance_cols
      c1 := min nCols (b.2.2.2 + cfg.hole_tolerance_cols + 1)
      block_id := "" } )

/-- BlockSplitter._connected_components: scan cells in row-major order and
launch a BFS at every occupied, unvisited cell. -/
def connectedComponents (cfg : ParserConfig) (O : Mat) : List Block :=
  ((List.range O.nRows).foldl (fun acc r =>
    (List.range O.nCols).foldl (fun (acc : List (Nat × Nat) × List Block) c =>
      if O.get r c = 1 ∧ (r, c) ∉ acc.1 then
        let out := bfsConnected cfg O acc.1 r c
        (out.1, acc.2 ++ [out.2])
      else acc) acc) (([] : List (Nat × Nat)), ([] : List Block))).2

/-- BlockSplitter._calculate_border_completeness: fraction of boundary
border flags set along the four walls of the block. -/
def calcBorderCompleteness (b : Block) (B : BMat) : ℚ :=
  if B.nRows * B.nCols = 0 then 0
  else
    let step := ((List.range' b.r0 (b.r1 - b.r0)).flatMap (fun r =>
      (List.range' b.c0 (b.c1 - b.c0)).map (fun c => (r, c)))).foldl
      (fun (acc : Nat × Nat) rc =>
        if rc.1 < B.nRows ∧ rc.2 < B.nCols then
          let add :=
            (if rc.1 = b.r0 then B.flag rc.1 rc.2 0 else 0) +
            (if rc.1 = b.r1 - 1 then B.flag rc.1 rc.2 2 else 0) +
            (if rc.2 = b.c0 then B.flag rc.1 rc.2 3 else 0) +
            (if rc.2 = b.c1 - 1 then B.flag rc.1 rc.2 1 else 0)
          (acc.1 + add, acc.2 + 4)
        else acc)
      (0, 0)
    (step.1 : ℚ) / max step.2 1

/-- BlockSplitter._split_by_border_contours: the source returns the block
unchanged (contour detection is stubbed there). -/
def splitByBorderContours (b : Block) (_O : Mat) (_B : BMat) : List Block := [b]

/-- BlockSplitter._enhance_with_borders: keep blocks whose boundary border
completeness exceeds 0.3, pass the rest through the contour splitter, and
fall back to the input list when nothing survives. -/
def enhanceWithBorders (blocks : List Block) (O : Mat) (B : BMat) : List Block :=
  let enhanced := blocks.foldl (fun acc b =>
    if (3 : ℚ) / 10 < calcBorderCompleteness b B then acc ++ [b]
    else acc ++ splitByBorderContours b O B) []
  if enhanced.isEmpty then blocks else enhanced

/-- BlockSplitter._calculate_rectangularity: occupied fraction of the bbox. -/
def calcRectangularity (b : Block) (O : Mat) : ℚ :=
  (regionSum O b : ℚ) / max b.area 1

/-- Density of a block region, `np.sum(region) / max(area, 1)` as computed
in _mdl_split_decision and calculate_table_score. -/
def densityOf (O : Mat) (b : Block) : ℚ :=
  (regionSum O b : ℚ) / max b.area 1

/-- The fully empty rows of the block's own sub-matrix (local indices),
as _try_split_by_gaps computes them over the numpy slice of O. -/
def emptyRowsOf (b : Block) (O : Mat) : List Nat :=
  let nr := min b.r1 O.nRows - min b.r0 O.nRows
  let nc := min b.c1 O.nCols - min b.c0 O.nCols
  (List.range nr).filter (fun r =>
    ((List.range nc).map (fun c => Mat.get O (b.r0 + r) (b.c0 + c))).sum = 0)

/-- The fully empty columns of the block's own sub-matrix. -/
def emptyColsOf (b : Block) (O : Mat) : List Nat :=
  let nr := min b.r1 O.nRows - min b.r0 O.nRows
  let nc := min b.c1 O.nCols - min b.c0 O.nCols
  (List.range nc).filter (fun c =>
    ((List.range nr).map (fun r => Mat.get O (b.r0 + r) (b.c0 + c))).sum = 0)

/-- The horizontal cuts of _try_split_by_gaps: slabs between empty rows
that reach min_block_height, plus the final slab when tall enough. -/
def rowSplitsOf (cfg : ParserConfig) (b : Block) (O : Mat) : List Block :=
  let acc := (emptyRowsOf b O).foldl (fun (acc : List Block × Nat) er =>
    if cfg.min_block_height ≤ er - acc.2 then
      (acc.1 ++ [{ r0 := b.r0 + acc.2, r1 := b.r0 + er, c0 := b.c0, c1 := b.c1 }],
        er + 1)
    else (acc.1, er + 1)) ([], 0)
  if cfg.min_block_height ≤ b.r1 - (b.r0 + acc.2) then
    acc.1 ++ [{ r0 := b.r0 + acc.2, r1 := b.r1, c0 := b.c0, c1 := b.c1 }]
  else acc.1

/-- The vertical cuts of _try_split_by_gaps. -/
def colSplitsOf (cfg : ParserConfig) (b : Block) (O : Mat) : List Block :=
  let acc := (emptyColsOf b O).foldl (fun (acc : List Block × Nat) ec =>
    if cfg.min_block_width ≤ ec - acc.2 then
      (acc.1 ++ [{ r0 := b.r0, r1 := b.r1, c0 := b.c0 + acc.2, c1 := b.c0 + ec }],
        ec + 1)
    else (acc.1, ec + 1)) ([], 0)
  if cfg.min_block_width ≤ b.c1 - (b.c0 + acc.2) then
    acc.1 ++ [{ r0 := b.r0, r1 := b.r1, c0 := b.c0 + acc.2, c1 := b.c1 }]
  else acc.1

/-- BlockSplitter._try_split_by_gaps: with at least two empty rows cut
horizontally when that yields more than one slab; otherwise (also when
the row cut fails) with at least two empty columns cut vertically; keep
the block whole when neither produces two slabs. -/
def trySplitByGaps (cfg : ParserConfig) (b : Block) (O : Mat) : List Block :=
  if 2 ≤ (emptyRowsOf b O).length then
    let splits := rowSplitsOf cfg b O
    if 1 < splits.length then splits
    else if 2 ≤ (emptyColsOf b O).length then
      let splits := colSplitsOf cfg b O
      if 1 < splits.length then splits else [b]
    else [b]
  else if 2 ≤ (emptyColsOf b O).length then
    let splits := colSplitsOf cfg b O
    if 1 < splits.length then splits else [b]
  else [b]

/-- BlockSplitter._mdl_split_decision: compare the keep cost
α(1-density)+β(1-rect)+γ against the split cost; the split cost stays
infinite (None) unless a split is attempted and yields more than one
sub-block, and an infinite cost never wins the strict comparison. -/
def mdlSplitDecision (cfg : ParserConfig) (b : Block) (O : Mat) : List Block :=
  let density := densityOf O b
  let rect := calcRectangularity b O
  let costNoSplit := cfg.mdl_weights.1 * (1 - density) +
    cfg.mdl_weights.2.1 * (1 - rect) + cfg.mdl_weights.2.2 * 1
  let attempt :=
    if density < cfg.density_threshold ∨ rect < cfg.rectangularity_threshold then
      let sb := trySplitByGaps cfg b O
      if 1 < sb.length then
        let total := sb.foldl (fun acc s =>
          acc + (cfg.mdl_weights.1 * (1 - densityOf O s) +
            cfg.mdl_weights.2.1 * (1 - calcRectangularity s O))) 0
        ((some (total + cfg.mdl_weights.2.2 * sb.length) : Option ℚ), sb)
      else ((none : Option ℚ), sb)
    else ((none : Option ℚ), [b])
  match attempt.1 with
  | some costSplit => if costSplit < costNoSplit then attempt.2 else [b]
  | none => [b]

/-- BlockSplitter.split_blocks: connected components, size filter, border
enhancement for xlsx, MDL split decision, then id assignment b1, b2, …. -/
def splitBlocks (cfg : ParserConfig) (fmt : FileFormat) (O : Mat)
    (B : Option BMat) : List Block :=
  if O.nRows * O.nCols = 0 then []
  else
    let blocks := connectedComponents cfg O
    let blocks := blocks.filter (fun b =>
      cfg.min_block_height ≤ b.height ∧ cfg.min_block_width ≤ b.width)
    let blocks :=
      match fmt, B with
      | FileFormat.xlsx, some bm => enhanceWithBorders blocks O bm
      | _, _ => blocks
    let finalBlocks := blocks.foldl (fun acc b => acc ++ mdlSplitDecision cfg b O) []
    (finalBlocks.enum.map (fun p =>
      { p.2 with block_id := "b" ++ toString (p.1 + 1) }))

/-- models.TableScore with the fields calculate_table_score fills in. -/
structure TableScore where
  area : Nat := 0
  density : ℚ := 0
  type_consistency : ℚ := 0
  border_completeness : ℚ := 0
  header_completeness : ℚ := 0
  total : ℚ := 0
deriving DecidableEq

/-- `Counter(col_types).most_common(1)[0][1]`: the largest multiplicity of
any element of the list (0 for the empty list). -/
def maxCount (l : List Nat) : Nat :=
  l.foldl (fun m t => max m (l.count t)) 0

/-- The column types collected in Cleaner.calculate_table_score for column
`c` of a block: entries `T[r, c]` for rows of the block that lie inside
`T`'s shape. -/
def colTypes (b : Block) (T : Mat) (c : Nat) : List Nat :=
  (List.range' b.r0 (b.r1 - b.r0)).filterMap (fun r =>
    if r < T.nRows ∧ c < T.nCols then some (T.get r c) else none)

/-- The border/edge accumulation loop of Cleaner.calculate_table_score
(lines 50 to 64): scan the block cells in row-major order and, for cells
inside the border matrix shape, add the boundary flags and four edges. -/
def borderFoldPair (b : Block) (bm : BMat) : Nat × Nat :=
  ((List.range' b.r0 (b.r1 - b.r0)).flatMap (fun r =>
    (List.range' b.c0 (b.c1 - b.c0)).map (fun c => (r, c)))).foldl
    (fun (acc : Nat × Nat) rc =>
      if rc.1 < bm.nRows ∧ rc.2 < bm.nCols then
        let add :=
          (if rc.1 = b.r0 then bm.flag rc.1 rc.2 0 else 0) +
          (if rc.1 = b.r1 - 1 then bm.flag rc.1 rc.2 2 else 0) +
          (if rc.2 = b.c0 then bm.flag rc.1 rc.2 3 else 0) +
          (if rc.2 = b.c1 - 1 then bm.flag rc.1 rc.2 1 else 0)
        (acc.1 + add, acc.2 + 4)
      else acc)
    (0, 0)

/-- Cleaner.calculate_table_score: area, density, per-column type
consistency, border completeness (0.5 without a border matrix), header
completeness and the fixed weighted total. -/
def calculateTableScore (b : Block) (O T : Mat) (B : Option BMat)
    (headerRows : List Nat) : TableScore :=
  let density := (regionSum O b : ℚ) / max b.area 1
  let tcSum := (List.range' b.c0 (b.c1 - b.c0)).foldl (fun acc c =>
    let ts := colTypes b T c
    if ts.isEmpty then acc else acc + (maxCount ts : ℚ) / ts.length) 0
  let type_consistency := tcSum / max b.width 1
  let border_completeness : ℚ :=
    match B with
    | some bm =>
      let step := borderFoldPair b bm
      (step.1 : ℚ) / max step.2 1
    | none => 1 / 2
  let header_completeness : ℚ :=
    if headerRows.isEmpty then 0
    else ((headerRows.filter (fun r => b.r0 ≤ r ∧ r < b.r1)).length : ℚ) /
      max headerRows.length 1
  { area := b.area
    density := density
    type_consistency := type_consistency
    border_completeness := border_completeness
    header_completeness := header_completeness
    total := density * (3 / 10) + type_consistency * (1 / 4) +
      border_completeness * (1 / 5) + header_completeness * (1 / 4) }

/-- Cleaner.identify_main_table: the id of the first block whose total
score is maximal; `scoresTotal` models `scores.get(id, TableScore()).total`
as a total map from ids to totals. -/
def identifyMainTable (blocks : List Block) (scoresTotal : String → ℚ) : String :=
  match blocks with
  | [] => ""
  | b :: rest =>
    (rest.foldl (fun (acc : String × ℚ) blk =>
      let s := scoresTotal blk.block_id
      if acc.2 < s then (blk.block_id, s) else acc)
      (b.block_id, scoresTotal b.block_id)).1

/-- The per-block `is_main` marking of parser.parse_file: a block is main
exactly when its id equals the one chosen by identify_main_table. -/
def markMain (blocks : List Block) (scoresTotal : String → ℚ) : List (Block × Bool) :=
  let mainId := identifyMainTable blocks scoresTotal
  blocks.map (fun b => (b, b.block_id = mainId))

/-- The decimal digit character for `d` in 0..9 (clamping above at 9,
a case the callers never exercise). -/
def digitChar10 (d : Nat) : Char :=
  match d with
  | 0 => '0' | 1 => '1' | 2 => '2' | 3 => '3' | 4 => '4'
  | 5 => '5' | 6 => '6' | 7 => '7' | 8 => '8' | _ => '9'

/-- Fuel-driven decimal rendering of a natural number; `fuel > n`
always suffices. -/
def digitCharsAux : Nat → Nat → List Char
  | 0, _ => []
  | fuel + 1, n =>
    if n < 10 then [digitChar10 n]
    else digitCharsAux fuel (n / 10) ++ [digitChar10 (n % 10)]

/-- Decimal digit list of a natural number, most significant first. -/
def digitChars (n : Nat) : List Char := digitCharsAux (n + 1) n

/-- Decimal rendering of a natural number, as Python formats a
non-negative int. -/
def natToStr (n : Nat) : String := String.mk (digitChars n)

/-- Modelled from the spec: the default duplicate-column suffix template
(constants.py is absent from src/); per the spec's examples Price_1,
Price_2 the template is an underscore followed by the running count, so
suffix.format applied to n renders as an underscore and the decimal n. -/
def duplicateColSuffix (n : Nat) : String := "_" ++ natToStr n

/-- `seen.get(col, 0)` over the association-list model of the `seen`
dict in HeaderParser._handle_duplicate_columns. -/
def seenGet (seen : List (String × Nat)) (col : String) : Nat :=
  match seen.find? (fun p => p.1 = col) with
  | some p => p.2
  | none => 0

/-- `seen[col] = v` over the association-list model of the `seen` dict:
replace the entry when the key is present, append it otherwise (dict keys
are unique and keep insertion order). -/
def seenSet : List (String × Nat) → String → Nat → List (String × Nat)
  | [], col, v => [(col, v)]
  | p :: rest, col, v =>
    if p.1 = col then (p.1, v) :: rest else p :: seenSet rest col v

/-- HeaderParser._handle_duplicate_columns: every occurrence of a name
that appears more than once receives the configured suffix with a running
per-name counter that starts at 1 on the first occurrence; unique names
pass through unchanged. -/
def handleDuplicateColumns (cols : List String) : List String :=
  (cols.foldl (fun (acc : List String × List (String × Nat)) col =>
    if 1 < cols.count col then
      let n := seenGet acc.2 col + 1
      (acc.1 ++ [col ++ duplicateColSuffix n], seenSet acc.2 col n)
    else (acc.1 ++ [col], acc.2)) ([], [])).1

/-- ASCII digit test for the float grammar. -/
def isAsciiDigit (c : Char) : Bool := '0' ≤ c && c ≤ '9'

/-- Consume the tail of a Python digitpart after one digit was read:
further digits, with single underscores allowed between digits. -/
def digitPartTail : List Char → List Char
  | [] => []
  | '_' :: c :: rest => if isAsciiDigit c then digitPartTail rest else '_' :: c :: rest
  | c :: rest => if isAsciiDigit c then digitPartTail rest else c :: rest

/-- Consume a Python digitpart (one digit, then digits with single
underscores in between); none when no leading digit is present. -/
def digitPart : List Char → Option (List Char)
  | c :: rest => if isAsciiDigit c then some (digitPartTail rest) else none
  | [] => none

/-- Consume the significand of a Python float literal:
digits [. [digits]] or . digits. -/
def floatSignificand (l : List Char) : Option (List Char) :=
  match digitPart l with
  | some rest =>
    match rest with
    | '.' :: rest2 =>
      match digitPart rest2 with
      | some rest3 => some rest3
      | none => some rest2
    | _ => some rest
  | none =>
    match l with
    | '.' :: rest2 => digitPart rest2
    | _ => none

/-- Consume an optional exponent: (e|E) [sign] digits. -/
def floatExponent : List Char → Option (List Char)
  | e :: rest =>
    if e = 'e' ∨ e = 'E' then
      match rest with
      | s :: rest2 => if s = '+' ∨ s = '-' then digitPart rest2 else digitPart (s :: rest2)
      | [] => none
    else some (e :: rest)
  | [] => some []

/-- Python whitespace stripped by float(): space, tab, newline, carriage
return, form feed, vertical tab. -/
def isPyWs (c : Char) : Bool :=
  c = ' ' ∨ c = '\t' ∨ c = '\n' ∨ c = '\r' ∨ c = '\x0c' ∨ c = '\x0b'

/-- Python str.strip(): drop leading and trailing whitespace. -/
def pyStrip (s : String) : String :=
  String.mk (((s.data.dropWhile isPyWs).reverse.dropWhile isPyWs).reverse)

/-- Case-insensitive ASCII match of a word. -/
def matchesCI (l : List Char) (w : List Char) : Bool :=
  l.map Char.toLower == w

/-- Acceptance of CPython float(): optional surrounding whitespace, an
optional sign, then inf, infinity, nan (case-insensitive) or a decimal
significand with optional exponent. -/
def pyFloatAccepts (l : List Char) : Bool :=
  let l := (l.dropWhile isPyWs).reverse.dropWhile isPyWs |>.reverse
  let l := match l with
    | c :: rest => if c = '+' ∨ c = '-' then rest else c :: rest
    | [] => []
  if matchesCI l ['i', 'n', 'f'] ∨ matchesCI l ['i', 'n', 'f', 'i', 'n', 'i', 't', 'y'] ∨
      matchesCI l ['n', 'a', 'n'] then true
  else
    match floatSignificand l with
    | some rest =>
      match floatExponent rest with
      | some [] => true
      | _ => false
    | none => false

/-- GridBuilder._is_numeric: float() acceptance after deleting every
comma, percent sign, fullwidth yen sign and dollar sign. -/
def isNumeric (s : String) : Bool :=
  pyFloatAccepts (s.data.filter (fun c => ¬(c = ',' ∨ c = '%' ∨ c = '¥' ∨ c = '$')))

/-- GridBuilder._is_date_like: the string contains one of the date
indicator characters and has length at least 6. -/
def isDateLike (s : String) : Bool :=
  (['-', '/', '年', '月', '日', ':', 'T'].any (fun c => s.data.contains c)) &&
    6 ≤ s.length

/-- A cell of the raw dataframe: none models a pandas missing value. -/
abbrev Cell := Option String

/-- The dataframe backing a sheet, as a list of rows of cells. -/
abbrev CellGrid := List (List Cell)

/-- `df.shape[0]`. -/
def dfRows (df : CellGrid) : Nat := df.length

/-- `df.shape[1]` of a rectangular dataframe. -/
def dfCols (df : CellGrid) : Nat := (df.headD []).length

/-- `df.iloc[r, c]`. -/
def dfGet (df : CellGrid) (r c : Nat) : Cell := (df.getD r []).getD c none

/-- `str(val)`: a string cell renders as itself, a missing value renders
as the string nan (str of a pandas float NaN). -/
def strOfCell : Cell → String
  | some s => s
  | none => "nan"

/-- The per-cell classifier of GridBuilder.build_type_matrix: 0 for
missing or blank cells, else 2 when numeric, else 3 when date-like,
else 1; the numeric test runs before the date-like test. -/
def cellTypeOf (v : Cell) : Nat :=
  if v = none ∨ pyStrip (strOfCell v) = "" then 0
  else if isNumeric (strOfCell v) then 2
  else if isDateLike (strOfCell v) then 3
  else 1

/-- GridBuilder.build_type_matrix: classify every cell of the dataframe. -/
def buildTypeMatrix (df : CellGrid) : Mat :=
  df.map (fun row => row.map cellTypeOf)

/-- models.HeaderHierarchy; the header map is an association list from
header-cell coordinates to the collected title path. -/
structure HeaderHierarchy where
  header_rows : List Nat := []
  header_map : List ((Nat × Nat) × List String) := []
  leaf_columns : List String := []
deriving DecidableEq

/-- A merged-cell range as surfaced by the file reader (closed bounds). -/
structure MergedRange where
  min_row : Nat
  max_row : Nat
  min_col : Nat
  max_col : Nat
deriving DecidableEq

/-- Whether a merged range contains the cell `(r, c)`. -/
def MergedRange.containsCell (m : MergedRange) (r c : Nat) : Bool :=
  m.min_row ≤ r ∧ r ≤ m.max_row ∧ m.min_col ≤ c ∧ c ≤ m.max_col

/-- The score HeaderParser._detect_header_rows assigns to row `r`, or none
when numpy's mean of an empty style slice poisons the score with NaN (a
NaN score never exceeds the threshold). -/
def headerRowScore (cfg : ParserConfig) (fmt : FileFormat) (df : CellGrid)
    (b : Block) (O : Mat) (S : QMat) (T : Mat) (r : Nat) : Option ℚ :=
  let cols := List.range' b.c0 (min b.c1 (dfCols df) - b.c0)
  let textCount := (cols.filter (fun c => O.get r c = 1 ∧
    (if r < T.nRows ∧ c < T.nCols then T.get r c else 0) = 1)).length
  let numericCount := (cols.filter (fun c => O.get r c = 1 ∧
    (if r < T.nRows ∧ c < T.nCols then T.get r c else 0) = 2)).length
  let total := textCount + numericCount
  let base : ℚ :=
    (if 0 < total then ((textCount : ℚ) / total) * (2 / 5) else 0) +
    (if 0 < total then (1 - (numericCount : ℚ) / total) * (3 / 10) else 0)
  if fmt = FileFormat.xlsx ∧ r < S.nRows then
    let len := min b.c1 S.nCols - b.c0
    if len = 0 then none
    else
      let styleSum := ((List.range' b.c0 len).map (fun c => S.get r c)).sum
      some (base + styleSum / len * cfg.header_style_weight)
  else some base

/-- HeaderParser._detect_header_rows: scan the first max_header_rows rows
of the block (clipped to the block and the frame), keep rows whose score
exceeds 0.4, and truncate to max_header_rows. -/
def detectHeaderRows (cfg : ParserConfig) (fmt : FileFormat) (df : CellGrid)
    (b : Block) (O : Mat) (S : QMat) (T : Mat) : List Nat :=
  let maxCheck := min (min (b.r0 + cfg.max_header_rows) b.r1) (dfRows df)
  ((List.range' b.r0 (maxCheck - b.r0)).filter (fun r =>
    match headerRowScore cfg fmt df b O S T r with
    | some score => (2 : ℚ) / 5 < score
    | none => false)).take cfg.max_header_rows

/-- The merged-cell anchor index of HeaderParser._build_header_map: the
dict assigns in list order, so the last containing range wins. -/
def mergedIndexLookup (mc : List MergedRange) (r c : Nat) : Option (Nat × Nat) :=
  mc.foldl (fun acc m =>
    if m.containsCell r c then some (m.min_row, m.min_col) else acc) none

/-- HeaderParser._build_header_map: for every header row and block column
collect the trimmed non-empty title (through the merged-cell anchor when
the cell lies in a merge), keyed by the cell coordinates. -/
def buildHeaderMap (df : CellGrid) (b : Block) (headerRows : List Nat)
    (mc : List MergedRange) : List ((Nat × Nat) × List String) :=
  headerRows.foldl (fun acc rowIdx =>
    (List.range' b.c0 (min b.c1 (dfCols df) - b.c0)).foldl (fun acc colIdx =>
      let value : Cell :=
        match mergedIndexLookup mc rowIdx colIdx with
        | some rc =>
          if rc.1 < dfRows df ∧ rc.2 < dfCols df then dfGet df rc.1 rc.2 else none
        | none =>
          if rowIdx < dfRows df ∧ colIdx < dfCols df then dfGet df rowIdx colIdx
          else none
      match value with
      | some sv =>
        if pyStrip sv = "" then acc
        else acc ++ [((rowIdx, colIdx), [pyStrip sv])]
      | none => acc) acc) []

/-- HeaderParser._expand_to_leaf_columns: walk the header rows per column,
prefer the first merged range containing the cell (using its anchor value
when non-missing, otherwise reading the cell directly), collect distinct
non-empty trimmed titles, then join per keep_leaf_only, fall back to
Column plus the index for an empty path, and finally disambiguate
duplicates. -/
def expandToLeafColumns (cfg : ParserConfig) (df : CellGrid) (b : Block)
    (headerRows : List Nat) (mc : List MergedRange) : List String :=
  let leaf := (List.range' b.c0 (min b.c1 (dfCols df) - b.c0)).map (fun c =>
    let path := headerRows.foldl (fun (path : List String) rowIdx =>
      let found := mc.find? (fun m => m.containsCell rowIdx c)
      let mergedValue : Cell :=
        match found with
        | some m =>
          if m.min_row < dfRows df ∧ m.min_col < dfCols df then
            dfGet df m.min_row m.min_col
          else none
        | none => none
      match found, mergedValue with
      | some _, some sv =>
        let v := pyStrip sv
        if v ≠ "" ∧ v ∉ path then path ++ [v] else path
      | _, _ =>
        if rowIdx < dfRows df ∧ c < dfCols df then
          match dfGet df rowIdx c with
          | some sv =>
            let v := pyStrip sv
            if v ≠ "" ∧ v ∉ path then path ++ [v] else path
          | none => path
        else path) []
    if path ≠ [] then
      if cfg.keep_leaf_only then path.getLastD "" else String.intercalate "/" path
    else "Column" ++ natToStr c)
  handleDuplicateColumns leaf

/-- HeaderParser.parse_headers: detect header rows; with none, fall back
to the first block row as column names (Column plus the index only for
positions outside the frame); otherwise build the header map and expand
to leaf columns. -/
def parseHeaders (cfg : ParserConfig) (fmt : FileFormat) (df : CellGrid)
    (b : Block) (O : Mat) (S : QMat) (T : Mat) (mc : List MergedRange) :
    HeaderHierarchy :=
  let headerRows := detectHeaderRows cfg fmt df b O S T
  if headerRows.isEmpty then
    { header_rows := headerRows
      header_map := []
      leaf_columns := (List.range' b.c0 (b.c1 - b.c0)).map (fun c =>
        if b.r0 < dfRows df ∧ c < dfCols df then strOfCell (dfGet df b.r0 c)
        else "Column" ++ natToStr c) }
  else
    { header_rows := headerRows
      header_map := buildHeaderMap df b headerRows mc
      leaf_columns := expandToLeafColumns cfg df b headerRows mc }

/-- The error kinds raised by the validation prefix of parser.parse_file
(exceptions.InvalidArgumentError and UnsupportedFormatError). -/
inductive ErrorKind where
  | invalidArgument
  | unsupportedFormat
deriving DecidableEq

/-- pathlib Path.name: the last path component after splitting on the
separator, with empty and single-dot components dropped. -/
def pathName (p : String) : String :=
  ((p.splitOn "/").filter (fun s => s ≠ "" ∧ s ≠ ".")).getLastD ""

/-- The index of the last occurrence of `c` in `l`, mirroring str.rfind. -/
def lastIdxOf (l : List Char) (c : Char) : Option Nat :=
  match l.reverse.findIdx? (fun x => x = c) with
  | some j => some (l.length - 1 - j)
  | none => none

/-- pathlib Path.suffix: the substring of the name from its last dot, when
that dot is neither the first nor the last character of the name. -/
def pathSuffix (p : String) : String :=
  let name := pathName p
  match lastIdxOf name.data '.' with
  | some i =>
    if 0 < i ∧ i + 1 < name.data.length then String.mk (name.data.drop i) else ""
  | none => ""

/-- str.lower restricted to the ASCII range the extensions use. -/
def lowerStr (s : String) : String := String.mk (s.data.map Char.toLower)

/-- file_reader.detect_format: map the lower-cased path suffix to a
format, or fail with UnsupportedFormat. -/
def detectFormat (p : String) : Except ErrorKind FileFormat :=
  let ext := lowerStr (pathSuffix p)
  if ext = ".xlsx" then Except.ok FileFormat.xlsx
  else if ext = ".xlsb" then Except.ok FileFormat.xlsb
  else if ext = ".csv" then Except.ok FileFormat.csv
  else Except.error ErrorKind.unsupportedFormat

/-- The argument-validation prefix of parser.parse_file (its step 1): a
CSV input must carry no sheet list (the list is then reset to none), an
xlsx or xlsb input must carry a non-empty one. -/
def parseFileStart (p : String) (sheets : Option (List String)) :
    Except ErrorKind (FileFormat × Option (List String)) :=
  match detectFormat p with
  | Except.error e => Except.error e
  | Except.ok fmt =>
    match fmt with
    | FileFormat.csv =>
      match sheets with
      | some l => if l.length ≠ 0 then Except.error ErrorKind.invalidArgument
        else Except.ok (fmt, none)
      | none => Except.ok (fmt, none)
    | _ =>
      match sheets with
      | some l => if l.length = 0 then Except.error ErrorKind.invalidArgument
        else Except.ok (fmt, some l)
      | none => Except.error ErrorKind.invalidArgument

/-- The externally visible actions parse_file performs after validation,
in statement order: creating the run directory, opening the log sinks,
reading the input file, writing tables, metadata and manifest. -/
inductive RunEffect where
  | createRunDir
  | openLogSinks
  | readInputFile
  | writeOutputs
deriving DecidableEq

/-- The effect trace of parser.parse_file up to its error behaviour:
validation (step 1) precedes the run-directory creation (step 2), the
logger initialisation (step 3) and all later work, so a validation error
leaves an empty trace.  The post-validation work itself is input/output
and is not modelled beyond its occurrence. -/
def parseFileObservable (p : String) (sheets : Option (List String)) :
    List RunEffect × Option ErrorKind :=
  match parseFileStart p sheets with
  | Except.error e => ([], some e)
  | Except.ok _ =>
    ([RunEffect.createRunDir, RunEffect.openLogSinks, RunEffect.readInputFile,
      RunEffect.writeOutputs], none)

/-- The keep cost of the MDL decision, as the spec writes it. -/
def keepCost (cfg : ParserConfig) (O : Mat) (b : Block) : ℚ :=
  cfg.mdl_weights.1 * (1 - densityOf O b) +
    cfg.mdl_weights.2.1 * (1 - calcRectangularity b O) + cfg.mdl_weights.2.2

/-- The split cost of the MDL decision, as the spec writes it: the sum of
the per-sub-block terms plus the block-count term. -/
def splitCost (cfg : ParserConfig) (O : Mat) (bs : List Block) : ℚ :=
  (bs.map (fun s => cfg.mdl_weights.1 * (1 - densityOf O s) +
    cfg.mdl_weights.2.1 * (1 - calcRectangularity s O))).sum +
    cfg.mdl_weights.2.2 * bs.length

theorem foldl_add_map {α : Type} (f : α → ℚ) (l : List α) (init : ℚ) :
    l.foldl (fun acc x => acc + f x) init = init + (l.map f).sum := by
  induction l generalizing init with
  | nil => simp
  | cons x xs ih => simp [List.foldl_cons, ih, add_assoc]

/-- C6: the MDL decision splits exactly when the density or the
rectangularity falls below its threshold, the gap split produces at least
two sub-blocks, and the split cost is strictly below the keep cost;
otherwise, equal costs included, the un-split block is returned. -/
theorem mdl_decision_characterization (cfg : ParserConfig) (b : Block) (O : Mat) :
    mdlSplitDecision cfg b O =
      if (densityOf O b < cfg.density_threshold ∨
            calcRectangularity b O < cfg.rectangularity_threshold) ∧
          2 ≤ (trySplitByGaps cfg b O).length ∧
          splitCost cfg O (trySplitByGaps cfg b O) < keepCost cfg O b
      then trySplitByGaps cfg b O else [b] := by
  have hsum : (trySplitByGaps cfg b O).foldl (fun acc s =>
      acc + (cfg.mdl_weights.1 * (1 - densityOf O s) +
        cfg.mdl_weights.2.1 * (1 - calcRectangularity s O))) 0 +
      cfg.mdl_weights.2.2 * (trySplitByGaps cfg b O).length =
      splitCost cfg O (trySplitByGaps cfg b O) := by
    rw [foldl_add_map, zero_add]; rfl
  have hkeep : cfg.mdl_weights.1 * (1 - densityOf O b) +
      cfg.mdl_weights.2.1 * (1 - calcRectangularity b O) +
      cfg.mdl_weights.2.2 * 1 = keepCost cfg O b := by
    rw [mul_one]; rfl
  unfold mdlSplitDecision
  by_cases h1 : densityOf O b < cfg.density_threshold ∨
      calcRectangularity b O < cfg.rectangularity_threshold
  · by_cases h2 : 1 < (trySplitByGaps cfg b O).length
    · simp only [if_pos h1, if_pos h2, hsum, hkeep]
      refine if_congr ?_ rfl rfl
      exact ⟨fun h => ⟨h1, h2, h⟩, fun h => h.2.2⟩
    · simp only [if_pos h1, if_neg h2]
      rw [if_neg]
      intro hc
      exact h2 hc.2.1
  · simp only [if_neg h1]
    rw [if_neg]
    intro hc
    exact h1 hc.1

theorem foldl_max_eq (f : Nat → Nat) (l : List Nat) :
    ∀ a : Nat, l.foldl (fun m t => max m (f t)) a = max a (l.toFinset.sup f) := by
  induction l with
  | nil => intro a; simp
  | cons x xs ih =>
    intro a
    rw [List.foldl_cons, ih, List.toFinset_cons, Finset.sup_insert, max_assoc]

theorem maxCount_eq_sup (l : List Nat) :
    maxCount l = l.toFinset.sup (fun t => l.count t) := by
  unfold maxCount
  rw [foldl_max_eq]
  exact Nat.zero_max _

/-- The type-consistency component as claim C7 words it: per column, the
share of the most frequent non-empty type code, with empty cells (code 0)
excluded from both the mode and the denominator. -/
def typeConsistencySpecC7 (b : Block) (T : Mat) : ℚ :=
  ((List.range' b.c0 (b.c1 - b.c0)).map (fun c =>
    let ts := (colTypes b T c).filter (fun t => t ≠ 0)
    if ts = [] then 0
    else ((ts.toFinset.sup (fun t => ts.count t) : ℕ) : ℚ) / ts.length)).sum /
    max b.width 1

/-- The type-consistency component the source computes: per column, the
share of the most frequent type code over all in-shape cells of the
column, empty cells included. -/
def typeConsistencyAll (b : Block) (T : Mat) : ℚ :=
  ((List.range' b.c0 (b.c1 - b.c0)).map (fun c =>
    let ts := colTypes b T c
    if ts = [] then 0
    else ((ts.toFinset.sup (fun t => ts.count t) : ℕ) : ℚ) / ts.length)).sum /
    max b.width 1

/-- C7 counterexample: on the single-column block with column types
0, 0, 1 the source scores 2/3 (the empty code 0 is the mode), while the
claim's empty-excluding reading scores 1. -/
theorem type_consistency_spec_cex :
    (calculateTableScore { r0 := 0, r1 := 3, c0 := 0, c1 := 1 } [[1], [1], [1]]
        [[0], [0], [1]] none []).type_consistency =
      2 / 3 ∧
    typeConsistencySpecC7 { r0 := 0, r1 := 3, c0 := 0, c1 := 1 } [[0], [0], [1]] = 1 ∧
    (calculateTableScore { r0 := 0, r1 := 3, c0 := 0, c1 := 1 } [[1], [1], [1]]
        [[0], [0], [1]] none []).type_consistency ≠
      typeConsistencySpecC7 { r0 := 0, r1 := 3, c0 := 0, c1 := 1 } [[0], [0], [1]] := by
  refine ⟨by decide, by decide, by decide⟩

/-- C7 amended: the type-consistency component averages, over the block's
columns, the share of the most frequent type code among all in-shape cells
of the column; empty cells participate in both the mode and the share. -/
theorem type_consistency_counts_empty_cells (b : Block) (O T : Mat)
    (B : Option BMat) (hr : List Nat) :
    (calculateTableScore b O T B hr).type_consistency = typeConsistencyAll b T := by
  unfold calculateTableScore typeConsistencyAll
  simp only []
  congr 1
  have hptw : (List.range' b.c0 (b.c1 - b.c0)).foldl (fun acc c =>
      let ts := colTypes b T c
      if ts.isEmpty then acc else acc + (maxCount ts : ℚ) / ts.length) 0 =
      (List.range' b.c0 (b.c1 - b.c0)).foldl (fun acc c =>
      acc + (let ts := colTypes b T c
        if ts = [] then 0
        else ((ts.toFinset.sup (fun t => ts.count t) : ℕ) : ℚ) / ts.length)) 0 := by
    apply List.foldl_ext
    intro acc c _
    simp only [List.isEmpty_iff, maxCount_eq_sup]
    by_cases hts : colTypes b T c = []
    · simp [hts]
    · simp [hts]
  rw [hptw, foldl_add_map, zero_add]

/-- The type matrix applies the per-cell classifier at every coordinate;
out-of-range coordinates read the empty class 0 on both sides. -/
theorem get_buildTypeMatrix (df : CellGrid) (r c : Nat) :
    Mat.get (buildTypeMatrix df) r c = cellTypeOf (dfGet df r c) := by
  unfold Mat.get buildTypeMatrix dfGet
  rcases hlt : df.getD r [] with _ | _
  all_goals {
    have hmap : (df.map (fun row => row.map cellTypeOf)).getD r [] =
        (df.getD r []).map cellTypeOf := by
      rcases Nat.lt_or_ge r df.length with h | h
      · rw [List.getD_eq_getElem _ _ h, List.getD_eq_getElem _ _ (by simp [h]),
          List.getElem_map]
      · rw [List.getD_eq_default _ _ (by simp [h]), List.getD_eq_default _ _ h]
        rfl
    rw [hmap, hlt]
    rcases Nat.lt_or_ge c (df.getD r []).length with h | h
    · rw [hlt] at h
      rw [List.getD_eq_getElem _ _ h, List.getD_eq_getElem _ _ (by simpa using h),
        List.getElem_map]
    · rw [hlt] at h
      rw [List.getD_eq_default _ _ (by simpa using h), List.getD_eq_default _ _ h]
      rfl
  }

/-- C4 counterexample: the string -123456 is both numeric and date-like,
its cell is non-blank, and the type matrix classifies it 2 (numeric), not
3 (date-like): the numeric check runs first. -/
theorem type_matrix_datelike_cex :
    isDateLike (strOfCell (some "-123456")) = true ∧
    ¬(some "-123456" = (none : Cell) ∨ pyStrip (strOfCell (some "-123456")) = "") ∧
    Mat.get (buildTypeMatrix [[some "-123456"]]) 0 0 = 2 ∧
    Mat.get (buildTypeMatrix [[some "-123456"]]) 0 0 ≠ 3 := by
  refine ⟨by decide, by decide, by decide, by decide⟩

/-- C4 amended: for a non-missing, non-blank cell the type matrix yields
the date-like class 3 exactly when the string is date-like and not
numeric; the numeric check precedes the date-like check, so a string that
is both (such as -123456) is classified numeric. -/
theorem type_matrix_datelike_after_numeric (df : CellGrid) (r c : Nat)
    (hne : ¬(dfGet df r c = none ∨ pyStrip (strOfCell (dfGet df r c)) = "")) :
    Mat.get (buildTypeMatrix df) r c = 3 ↔
      isDateLike (strOfCell (dfGet df r c)) = true ∧
      isNumeric (strOfCell (dfGet df r c)) = false := by
  rw [get_buildTypeMatrix]
  unfold cellTypeOf
  rw [if_neg hne]
  by_cases hnum : isNumeric (strOfCell (dfGet df r c))
  · simp [hnum]
  · by_cases hdate : isDateLike (strOfCell (dfGet df r c))
    · simp [hnum, hdate]
    · simp [hnum, hdate]

/-- Witness for the C4 amended theorem at the date cell 2024-01-01. -/
theorem type_matrix_datelike_after_numeric_witness :
    Mat.get (buildTypeMatrix [[some "2024-01-01"]]) 0 0 = 3 ↔
      isDateLike (strOfCell (dfGet [[some "2024-01-01"]] 0 0)) = true ∧
      isNumeric (strOfCell (dfGet [[some "2024-01-01"]] 0 0)) = false :=
  type_matrix_datelike_after_numeric [[some "2024-01-01"]] 0 0 (by decide)

theorem seenGet_nil (c : String) : seenGet [] c = 0 := by
  simp [seenGet]

theorem seenGet_cons (p : String × Nat) (rest : List (String × Nat)) (c : String) :
    seenGet (p :: rest) c = if p.1 = c then p.2 else seenGet rest c := by
  unfold seenGet
  by_cases h : p.1 = c
  · rw [List.find?_cons_of_pos _ (by simp [h]), if_pos h]
  · rw [List.find?_cons_of_neg _ (by simp [h]), if_neg h]

theorem seenGet_seenSet (s : List (String × Nat)) (c : String) (v : Nat)
    (c' : String) :
    seenGet (seenSet s c v) c' = if c' = c then v else seenGet s c' := by
  induction s with
  | nil =>
    simp only [seenSet]
    rw [seenGet_cons, seenGet_nil]
    by_cases h : c' = c
    · rw [if_pos h.symm, if_pos h]
    · rw [if_neg (fun e => h e.symm), if_neg h]
  | cons p rest ih =>
    simp only [seenSet]
    by_cases hp : p.1 = c
    · rw [if_pos hp, seenGet_cons, seenGet_cons]
      by_cases h : c' = c
      · rw [if_pos (by rw [hp, h]), if_pos h]
      · have hp' : ¬p.1 = c' := by rw [hp]; exact fun e => h e.symm
        rw [if_neg hp', if_neg h, if_neg hp']
    · rw [if_neg hp, seenGet_cons, seenGet_cons, ih]
      by_cases hpc : p.1 = c'
      · have h : ¬c' = c := fun e => hp (by rw [hpc, e])
        rw [if_pos hpc, if_neg h, if_pos hpc]
      · by_cases h : c' = c
        · rw [if_neg hpc, if_pos h, if_pos h]
        · rw [if_neg hpc, if_neg h, if_neg h, if_neg hpc]

/-- The per-position description of _handle_duplicate_columns: walk the
remaining names with the processed prefix at hand; a name with a
duplicated global count receives the suffix numbered by its occurrence
count so far (the prefix count plus one). -/
def dedupRec (cols : List String) : List String → List String → List String
  | [], _ => []
  | col :: rest, processed =>
    (if 1 < cols.count col then
      col ++ duplicateColSuffix (processed.count col + 1)
     else col) :: dedupRec cols rest (processed ++ [col])

theorem hdc_fold (cols : List String) :
    ∀ (rest processed out : List String) (seen : List (String × Nat)),
    (∀ c, seenGet seen c = if 1 < cols.count c then processed.count c else 0) →
    (rest.foldl (fun (acc : List String × List (String × Nat)) col =>
      if 1 < cols.count col then
        let n := seenGet acc.2 col + 1
        (acc.1 ++ [col ++ duplicateColSuffix n], seenSet acc.2 col n)
      else (acc.1 ++ [col], acc.2)) (out, seen)).1 =
    out ++ dedupRec cols rest processed := by
  intro rest
  induction rest with
  | nil => intro processed out seen _; simp [dedupRec]
  | cons col rest ih =>
    intro processed out seen hseen
    rw [List.foldl_cons]
    by_cases hc : 1 < cols.count col
    · simp only [if_pos hc]
      have hn : seenGet seen col + 1 = processed.count col + 1 := by
        rw [hseen col, if_pos hc]
      rw [hn]
      have hseen' : ∀ c, seenGet (seenSet seen col (processed.count col + 1)) c =
          if 1 < cols.count c then (processed ++ [col]).count c else 0 := by
        intro c
        rw [seenGet_seenSet]
        by_cases hcc : c = col
        · subst hcc
          rw [if_pos rfl, if_pos hc, List.count_append]
          simp
        · rw [if_neg hcc, hseen c, List.count_append]
          have : List.count c [col] = 0 := by
            simp [List.count_cons]
            exact fun e => hcc e.symm
          rw [this, Nat.add_zero]
      rw [ih (processed ++ [col]) (out ++ [col ++ duplicateColSuffix (processed.count col + 1)]) _ hseen']
      rw [dedupRec, if_pos hc, List.append_assoc]
      rfl
    · simp only [if_neg hc]
      rw [ih (processed ++ [col]) (out ++ [col]) seen ?_]
      · rw [dedupRec, if_neg hc, List.append_assoc]
        rfl
      · intro c
        rw [hseen c]
        by_cases hcc : c = col
        · subst hcc
          rw [if_neg hc, if_neg hc]
        · by_cases h1 : 1 < cols.count c
          · rw [if_pos h1, if_pos h1, List.count_append]
            have : List.count c [col] = 0 := by
              simp [List.count_cons]
              exact fun e => hcc e.symm
            rw [this, Nat.add_zero]
          · rw [if_neg h1, if_neg h1]

theorem handleDuplicateColumns_eq (cols : List String) :
    handleDuplicateColumns cols = dedupRec cols cols [] := by
  unfold handleDuplicateColumns
  rw [hdc_fold cols cols [] [] [] (fun c => by simp [seenGet_nil])]
  simp

theorem dedupRec_length (cols : List String) :
    ∀ (rest processed : List String),
    (dedupRec cols rest processed).length = rest.length := by
  intro rest
  induction rest with
  | nil => intro processed; simp [dedupRec]
  | cons col rest ih => intro processed; simp [dedupRec, ih]

theorem dedupRec_getD (cols : List String) :
    ∀ (rest processed : List String) (i : Nat), i < rest.length →
    (dedupRec cols rest processed).getD i "" =
      if 1 < cols.count (rest.getD i "") then
        rest.getD i "" ++
          duplicateColSuffix ((processed ++ rest.take (i + 1)).count (rest.getD i ""))
      else rest.getD i "" := by
  intro rest
  induction rest with
  | nil => intro processed i h; simp at h
  | cons col rest ih =>
    intro processed i h
    match i with
    | 0 =>
      simp only [dedupRec, List.getD_cons_zero, List.take_succ_cons, List.take_zero,
        List.count_append]
      by_cases hc : 1 < cols.count col
      · rw [if_pos hc, if_pos hc]
        simp
      · rw [if_neg hc, if_neg hc]
    | i + 1 =>
      have h' : i < rest.length := by simpa using h
      simp only [dedupRec, List.getD_cons_succ, List.take_succ_cons]
      rw [ih (processed ++ [col]) i h', List.append_assoc]
      rfl

/-- C3 counterexample: three equal names Price become Price_1, Price_2,
Price_3 (the first occurrence is renamed too), not Price, Price_1,
Price_2 as the claim states. -/
theorem handle_duplicate_columns_cex :
    handleDuplicateColumns ["Price", "Price", "Price"] =
      ["Price_1", "Price_2", "Price_3"] ∧
    handleDuplicateColumns ["Price", "Price", "Price"] ≠
      ["Price", "Price_1", "Price_2"] :=
  ⟨by decide, by decide⟩

/-- C3 amended: duplicate-name disambiguation renames every occurrence of
a name with global count above one, including the first, appending the
configured suffix with the running occurrence count (1 on the first
occurrence), and leaves names with count one unchanged. -/
theorem handle_duplicate_columns_characterization (cols : List String) (i : Nat)
    (h : i < cols.length) :
    (handleDuplicateColumns cols).getD i "" =
      if 1 < cols.count (cols.getD i "") then
        cols.getD i "" ++ duplicateColSuffix ((cols.take (i + 1)).count (cols.getD i ""))
      else cols.getD i "" := by
  rw [handleDuplicateColumns_eq, dedupRec_getD cols cols [] i h]
  simp

/-- Witness for the C3 amended theorem: the second of three equal names
Price is renamed Price with suffix count 2. -/
theorem handle_duplicate_columns_characterization_witness :
    (handleDuplicateColumns ["Price", "Price", "Price"]).getD 1 "" =
      if 1 < (["Price", "Price", "Price"] : List String).count
          ((["Price", "Price", "Price"] : List String).getD 1 "") then
        (["Price", "Price", "Price"] : List String).getD 1 "" ++
          duplicateColSuffix (((["Price", "Price", "Price"] : List String).take 2).count
            ((["Price", "Price", "Price"] : List String).getD 1 ""))
      else (["Price", "Price", "Price"] : List String).getD 1 "" :=
  handle_duplicate_columns_characterization ["Price", "Price", "Price"] 1 (by decide)

theorem digitChar10_ne_underscore (d : Nat) : digitChar10 d ≠ '_' := by
  unfold digitChar10
  split <;> decide

/-- The numeric value of a digit character. -/
def charVal (c : Char) : Nat := c.toNat - 48

/-- The number denoted by a list of decimal digit characters. -/
def valOfDigits (l : List Char) : Nat := l.foldl (fun a c => 10 * a + charVal c) 0

theorem charVal_digitChar10 (d : Nat) (h : d < 10) : charVal (digitChar10 d) = d := by
  interval_cases d <;> decide

theorem valOfDigits_append_single (xs : List Char) (c : Char) :
    valOfDigits (xs ++ [c]) = 10 * valOfDigits xs + charVal c := by
  unfold valOfDigits
  rw [List.foldl_append]
  rfl

theorem valOfDigits_digitCharsAux (fuel : Nat) :
    ∀ n, n < fuel → valOfDigits (digitCharsAux fuel n) = n := by
  induction fuel with
  | zero => intro n h; omega
  | succ fuel ih =>
    intro n h
    unfold digitCharsAux
    by_cases h10 : n < 10
    · rw [if_pos h10]
      show 10 * 0 + charVal (digitChar10 n) = n
      rw [charVal_digitChar10 n h10]
      omega
    · rw [if_neg h10]
      have hdiv : n / 10 < n := Nat.div_lt_self (by omega) (by omega)
      rw [valOfDigits_append_single, ih (n / 10) (by omega),
        charVal_digitChar10 (n % 10) (Nat.mod_lt _ (by omega))]
      omega

theorem valOfDigits_digitChars (n : Nat) : valOfDigits (digitChars n) = n :=
  valOfDigits_digitCharsAux (n + 1) n (Nat.lt_succ_self n)

theorem digitCharsAux_ne_underscore (fuel : Nat) :
    ∀ n, ∀ c ∈ digitCharsAux fuel n, c ≠ '_' := by
  induction fuel with
  | zero => intro n c hc; simp [digitCharsAux] at hc
  | succ fuel ih =>
    intro n c hc
    unfold digitCharsAux at hc
    by_cases h10 : n < 10
    · rw [if_pos h10] at hc
      simp at hc
      rw [hc]
      exact digitChar10_ne_underscore n
    · rw [if_neg h10] at hc
      rw [List.mem_append] at hc
      rcases hc with hc | hc
      · exact ih (n / 10) c hc
      · simp at hc
        rw [hc]
        exact digitChar10_ne_underscore (n % 10)

theorem digitChars_ne_underscore (n : Nat) : ∀ c ∈ digitChars n, c ≠ '_' :=
  digitCharsAux_ne_underscore (n + 1) n

theorem duplicateColSuffix_data (k : Nat) :
    (duplicateColSuffix k).data = '_' :: digitChars k := rfl

theorem strData_inj (a b : String) (h : a.data = b.data) : a = b := by
  cases a
  cases b
  congr 1

theorem underscore_digits_append_inj (a b ds ds' : List Char)
    (hds : ∀ c ∈ ds, c ≠ '_') (hds' : ∀ c ∈ ds', c ≠ '_')
    (h : a ++ '_' :: ds = b ++ '_' :: ds') : a = b ∧ ds = ds' := by
  rcases List.append_eq_append_iff.mp h with ⟨t, hb, ht⟩ | ⟨t, ha, ht⟩
  · match t, ht with
    | [], ht =>
      refine ⟨by simpa using hb.symm, ?_⟩
      simpa using ht
    | c0 :: t, ht =>
      exfalso
      have h1 : c0 = '_' ∧ ds = t ++ '_' :: ds' := by
        constructor
        · exact (List.cons_eq_cons.mp (by simpa using ht)).1.symm
        · exact (List.cons_eq_cons.mp (by simpa using ht)).2
      exact hds '_' (by rw [h1.2]; exact List.mem_append_right t (by simp)) rfl
  · match t, ht with
    | [], ht =>
      refine ⟨by simpa using ha, ?_⟩
      exact (by simpa using ht : ds' = ds).symm
    | c0 :: t, ht =>
      exfalso
      have h1 : c0 = '_' ∧ ds' = t ++ '_' :: ds := by
        constructor
        · exact (List.cons_eq_cons.mp (by simpa using ht)).1.symm
        · exact (List.cons_eq_cons.mp (by simpa using ht)).2
      exact hds' '_' (by rw [h1.2]; exact List.mem_append_right t (by simp)) rfl

theorem string_append_suffix_inj (a b : String) (k k' : Nat)
    (h : a ++ duplicateColSuffix k = b ++ duplicateColSuffix k') :
    a = b ∧ k = k' := by
  have hdata := congrArg String.data h
  rw [String.data_append, String.data_append, duplicateColSuffix_data,
    duplicateColSuffix_data] at hdata
  have hinj := underscore_digits_append_inj a.data b.data (digitChars k) (digitChars k')
    (digitChars_ne_underscore k) (digitChars_ne_underscore k') hdata
  refine ⟨strData_inj a b hinj.1, ?_⟩
  rw [← valOfDigits_digitChars k, ← valOfDigits_digitChars k', hinj.2]

theorem getD_mem_of_lt (l : List String) (i : Nat) (h : i < l.length) :
    l.getD i "" ∈ l := by
  rw [List.getD_eq_getElem l "" h]
  exact List.getElem_mem h

theorem take_succ_getD (l : List String) (i : Nat) (h : i < l.length) :
    l.take (i + 1) = l.take i ++ [l.getD i ""] := by
  rw [List.take_succ]
  congr 1
  rw [List.getD_eq_getElem l "" h]
  simp [List.getElem?_eq_getElem h]

theorem count_take_succ_self (l : List String) (i : Nat) (h : i < l.length) :
    (l.take (i + 1)).count (l.getD i "") = (l.take i).count (l.getD i "") + 1 := by
  rw [take_succ_getD l i h, List.count_append]
  simp

theorem count_take_mono (l : List String) (i j : Nat) (hij : i ≤ j) (x : String) :
    (l.take i).count x ≤ (l.take j).count x := by
  have hj : j = i + (j - i) := by omega
  rw [hj, List.take_add, List.count_append]
  omega

theorem count_take_le (l : List String) (n : Nat) (x : String) :
    (l.take n).count x ≤ l.count x :=
  (List.take_sublist n l).count_le x

theorem count_take_strict (l : List String) (i j : Nat) (hij : i < j)
    (hj : j < l.length) (heq : l.getD i "" = l.getD j "") :
    (l.take (i + 1)).count (l.getD i "") < (l.take (j + 1)).count (l.getD j "") := by
  have h1 : (l.take (i + 1)).count (l.getD i "") ≤ (l.take j).count (l.getD i "") :=
    count_take_mono l (i + 1) j hij _
  have h2 : (l.take (j + 1)).count (l.getD j "") = (l.take j).count (l.getD j "") + 1 :=
    count_take_succ_self l j hj
  rw [heq] at h1 ⊢
  omega

theorem two_le_count_of_dup (l : List String) (i j : Nat) (hij : i < j)
    (hj : j < l.length) (heq : l.getD i "" = l.getD j "") :
    2 ≤ l.count (l.getD i "") := by
  have hi : i < l.length := Nat.lt_trans hij hj
  have h1 : 1 ≤ (l.take (i + 1)).count (l.getD i "") := by
    rw [count_take_succ_self l i hi]
    omega
  have h2 := count_take_strict l i j hij hj heq
  have h3 := count_take_le l (j + 1) (l.getD j "")
  rw [← heq] at h3 h2
  omega

/-- C5 counterexample: on input names Price, Price, Price_1 the
disambiguation outputs Price_1, Price_2, Price_1, so two columns of the
table carry the same name. -/
theorem leaf_columns_distinct_cex :
    handleDuplicateColumns ["Price", "Price", "Price_1"] =
      ["Price_1", "Price_2", "Price_1"] ∧
    ¬ (handleDuplicateColumns ["Price", "Price", "Price_1"]).Nodup :=
  ⟨by decide, by decide⟩

/-- C5 amended: the disambiguated leaf-column names are pairwise distinct
provided no raw name already equals another raw name with the suffix
appended for some feasible occurrence count. -/
theorem leaf_columns_pairwise_distinct (cols : List String)
    (h : ∀ a ∈ cols, ∀ b ∈ cols, ∀ k, 1 ≤ k → k ≤ cols.length →
      b ≠ a ++ duplicateColSuffix k) :
    (handleDuplicateColumns cols).Nodup := by
  have hlen : (handleDuplicateColumns cols).length = cols.length := by
    rw [handleDuplicateColumns_eq, dedupRec_length]
  have kbound : ∀ m, m < cols.length →
      1 ≤ (cols.take (m + 1)).count (cols.getD m "") ∧
      (cols.take (m + 1)).count (cols.getD m "") ≤ cols.length := by
    intro m hm
    constructor
    · rw [count_take_succ_self cols m hm]
      omega
    · exact Nat.le_trans (count_take_le cols (m + 1) _)
        (List.count_le_length _ _)
  have aux : ∀ i j, i < j → j < cols.length →
      (handleDuplicateColumns cols).getD i "" ≠
      (handleDuplicateColumns cols).getD j "" := by
    intro i j hij hj hcontra
    have hi : i < cols.length := Nat.lt_trans hij hj
    rw [handle_duplicate_columns_characterization cols i hi,
      handle_duplicate_columns_characterization cols j hj] at hcontra
    by_cases hca : 1 < cols.count (cols.getD i "")
    · by_cases hcb : 1 < cols.count (cols.getD j "")
      · rw [if_pos hca, if_pos hcb] at hcontra
        have hinj := string_append_suffix_inj _ _ _ _ hcontra
        have hlt := count_take_strict cols i j hij hj hinj.1
        have hkk := hinj.2
        omega
      · rw [if_pos hca, if_neg hcb] at hcontra
        exact h (cols.getD i "") (getD_mem_of_lt cols i hi)
          (cols.getD j "") (getD_mem_of_lt cols j hj)
          ((cols.take (i + 1)).count (cols.getD i ""))
          (kbound i hi).1 (kbound i hi).2 hcontra.symm
    · by_cases hcb : 1 < cols.count (cols.getD j "")
      · rw [if_neg hca, if_pos hcb] at hcontra
        exact h (cols.getD j "") (getD_mem_of_lt cols j hj)
          (cols.getD i "") (getD_mem_of_lt cols i hi)
          ((cols.take (j + 1)).count (cols.getD j ""))
          (kbound j hj).1 (kbound j hj).2 hcontra
      · rw [if_neg hca, if_neg hcb] at hcontra
        exact hca (two_le_count_of_dup cols i j hij hj hcontra)
  rw [List.nodup_iff_injective_get]
  rintro ⟨i, hi⟩ ⟨j, hj⟩ hxy
  have hgi : (handleDuplicateColumns cols).get ⟨i, hi⟩ =
      (handleDuplicateColumns cols).getD i "" :=
    (List.getD_eq_getElem _ "" hi).symm
  have hgj : (handleDuplicateColumns cols).get ⟨j, hj⟩ =
      (handleDuplicateColumns cols).getD j "" :=
    (List.getD_eq_getElem _ "" hj).symm
  rcases Nat.lt_trichotomy i j with h' | h' | h'
  · exfalso
    apply aux i j h' (hlen ▸ hj)
    rw [← hgi, ← hgj]
    exact hxy
  · exact Fin.ext h'
  · exfalso
    apply aux j i h' (hlen ▸ hi)
    rw [← hgi, ← hgj]
    exact hxy.symm

/-- Witness for the C5 amended theorem on names Price, Price, Qty. -/
theorem leaf_columns_pairwise_distinct_witness :
    (handleDuplicateColumns ["Price", "Price", "Qty"]).Nodup :=
  leaf_columns_pairwise_distinct ["Price", "Price", "Qty"] (by
    intro a ha b hb k hk1 hk2
    simp only [List.length_cons, List.length_nil] at hk2
    interval_cases k <;> fin_cases ha <;> fin_cases hb <;> decide)

/-- The default Block used for positional statements. -/
def blockDefault : Block := { r0 := 0, r1 := 0, c0 := 0, c1 := 0 }

theorem argmax_fold (scoresTotal : String → ℚ) (rest : List Block) :
    ∀ (accId : String) (accS : ℚ),
    let res := rest.foldl (fun (acc : String × ℚ) blk =>
      let s := scoresTotal blk.block_id
      if acc.2 < s then (blk.block_id, s) else acc) (accId, accS)
    accS ≤ res.2 ∧ (∀ b ∈ rest, scoresTotal b.block_id ≤ res.2) ∧
      (res = (accId, accS) ∨ ∃ i, i < rest.length ∧
        res.1 = (rest.getD i blockDefault).block_id ∧
        res.2 = scoresTotal (rest.getD i blockDefault).block_id ∧
        accS < res.2 ∧
        ∀ j, j < i → scoresTotal (rest.getD j blockDefault).block_id < res.2) := by
  induction rest with
  | nil =>
    intro accId accS
    exact ⟨le_refl _, by simp, Or.inl rfl⟩
  | cons x xs ih =>
    intro accId accS
    rw [List.foldl_cons]
    by_cases hx : accS < scoresTotal x.block_id
    · rw [if_pos hx]
      obtain ⟨h1, h2, h3⟩ := ih x.block_id (scoresTotal x.block_id)
      refine ⟨le_of_lt (lt_of_lt_of_le hx h1), ?_, ?_⟩
      · intro b hb
        rcases List.mem_cons.mp hb with hb | hb
        · rw [hb]; exact h1
        · exact h2 b hb
      · rcases h3 with h3 | ⟨i, hilen, hid, hsc, hlt, hall⟩
        · refine Or.inr ⟨0, by simp, ?_, ?_, ?_, ?_⟩
          · rw [h3]; rfl
          · rw [h3]; rfl
          · rw [h3]; exact hx
          · intro j hj; omega
        · refine Or.inr ⟨i + 1, by simpa using hilen, by simpa using hid,
            by simpa using hsc, lt_trans hx hlt, ?_⟩
          intro j hj
          match j with
          | 0 =>
            show scoresTotal x.block_id < _
            exact lt_of_lt_of_le hlt (le_refl _) |>.trans_le (le_refl _) |> fun _ => hlt
          | j + 1 =>
            have := hall j (by omega)
            simpa using this
    · rw [if_neg hx]
      obtain ⟨h1, h2, h3⟩ := ih accId accS
      refine ⟨h1, ?_, ?_⟩
      · intro b hb
        rcases List.mem_cons.mp hb with hb | hb
        · rw [hb]; exact le_trans (le_of_not_lt hx) h1
        · exact h2 b hb
      · rcases h3 with h3 | ⟨i, hilen, hid, hsc, hlt, hall⟩
        · exact Or.inl h3
        · refine Or.inr ⟨i + 1, by simpa using hilen, by simpa using hid,
            by simpa using hsc, hlt, ?_⟩
          intro j hj
          match j with
          | 0 =>
            show scoresTotal x.block_id < _
            exact lt_of_le_of_lt (le_of_not_lt hx) hlt
          | j + 1 =>
            have := hall j (by omega)
            simpa using this

/-- C2: with pairwise-distinct block ids, the chosen main block exists at
some position whose score is greatest, every earlier block scores
strictly less (ties go to the earliest), and at most one block of the
sheet is marked is_main. -/
theorem main_table_selection (blocks : List Block) (scoresTotal : String → ℚ)
    (hne : blocks ≠ [])
    (hnd : (blocks.map Block.block_id).Nodup) :
    (∃ i, i < blocks.length ∧
      identifyMainTable blocks scoresTotal = (blocks.getD i blockDefault).block_id ∧
      (∀ j, j < blocks.length →
        scoresTotal (blocks.getD j blockDefault).block_id ≤
        scoresTotal (blocks.getD i blockDefault).block_id) ∧
      (∀ j, j < i →
        scoresTotal (blocks.getD j blockDefault).block_id <
        scoresTotal (blocks.getD i blockDefault).block_id)) ∧
    ((markMain blocks scoresTotal).filter (fun p => p.2)).length ≤ 1 := by
  constructor
  · match blocks, hne with
    | b :: rest, _ =>
      obtain ⟨h1, h2, h3⟩ := argmax_fold scoresTotal rest b.block_id
        (scoresTotal b.block_id)
      rcases h3 with h3 | ⟨i, hilen, hid, hsc, hlt, hall⟩
      · refine ⟨0, by simp, ?_, ?_, ?_⟩
        · simp only [identifyMainTable]
          rw [h3]
          rfl
        · intro j hj
          match j with
          | 0 => exact le_refl _
          | j + 1 =>
            show scoresTotal ((rest.getD j blockDefault).block_id) ≤ _
            have hmem : rest.getD j blockDefault ∈ rest :=
              List.getD_eq_getElem rest blockDefault (by simpa using hj) ▸
                List.getElem_mem _
            have := h2 _ hmem
            rw [h3] at this
            exact this
        · intro j hj; omega
      · refine ⟨i + 1, by simpa using hilen, ?_, ?_, ?_⟩
        · simp only [identifyMainTable, List.getD_cons_succ]
          exact hid
        · intro j hj
          simp only [List.getD_cons_succ]
          rw [← hsc]
          match j with
          | 0 => exact le_of_lt hlt
          | j + 1 =>
            simp only [List.getD_cons_succ]
            have hj' : j < rest.length := by simpa using hj
            have hmem : rest.getD j blockDefault ∈ rest :=
              List.getD_eq_getElem rest blockDefault hj' ▸ List.getElem_mem _
            exact h2 _ hmem
        · intro j hj
          simp only [List.getD_cons_succ]
          rw [← hsc]
          match j with
          | 0 => exact hlt
          | j + 1 =>
            simp only [List.getD_cons_succ]
            exact hall j (by omega)
  · have hstep : ((markMain blocks scoresTotal).filter (fun p => p.2)).length =
        (blocks.map Block.block_id).countP
          (fun s => s = identifyMainTable blocks scoresTotal) := by
      unfold markMain
      rw [List.filter_map, List.length_map, ← List.countP_eq_length_filter,
        List.countP_map]
      rfl
    rw [hstep]
    have hgen : ∀ (l : List String) (m : String), l.Nodup →
        l.countP (fun s => s = m) ≤ 1 := by
      intro l m hl
      induction l with
      | nil => simp
      | cons x xs ih =>
        rw [List.countP_cons]
        have hx := (List.nodup_cons.mp hl).1
        have ih' := ih (List.nodup_cons.mp hl).2
        by_cases hxm : x = m
        · have hzero : xs.countP (fun s => s = m) = 0 := by
            rw [List.countP_eq_zero]
            intro a ha hcontra
            have : a = m := by simpa using hcontra
            rw [← hxm] at this
            rw [this] at ha
            exact hx ha
          simp [hzero, hxm]
        · simp [hxm]
          exact ih'
    exact hgen (blocks.map Block.block_id) _ hnd

/-- Witness for the C2 theorem on two blocks where the second scores
higher. -/
theorem main_table_selection_witness :
    (∃ i, i < ([{ r0 := 0, r1 := 1, c0 := 0, c1 := 1, block_id := "b1" },
        { r0 := 0, r1 := 1, c0 := 0, c1 := 1, block_id := "b2" }] : List Block).length ∧
      identifyMainTable [{ r0 := 0, r1 := 1, c0 := 0, c1 := 1, block_id := "b1" },
        { r0 := 0, r1 := 1, c0 := 0, c1 := 1, block_id := "b2" }]
        (fun s => if s = "b2" then 1 else 0) =
        (([{ r0 := 0, r1 := 1, c0 := 0, c1 := 1, block_id := "b1" },
          { r0 := 0, r1 := 1, c0 := 0, c1 := 1, block_id := "b2" }] : List Block).getD i
          blockDefault).block_id ∧
      (∀ j, j < ([{ r0 := 0, r1 := 1, c0 := 0, c1 := 1, block_id := "b1" },
          { r0 := 0, r1 := 1, c0 := 0, c1 := 1, block_id := "b2" }] : List Block).length →
        (fun s => if s = "b2" then (1 : ℚ) else 0)
          ((([{ r0 := 0, r1 := 1, c0 := 0, c1 := 1, block_id := "b1" },
            { r0 := 0, r1 := 1, c0 := 0, c1 := 1, block_id := "b2" }] : List Block).getD j
            blockDefault).block_id) ≤
        (fun s => if s = "b2" then (1 : ℚ) else 0)
          ((([{ r0 := 0, r1 := 1, c0 := 0, c1 := 1, block_id := "b1" },
            { r0 := 0, r1 := 1, c0 := 0, c1 := 1, block_id := "b2" }] : List Block).getD i
            blockDefault).block_id)) ∧
      (∀ j, j < i →
        (fun s => if s = "b2" then (1 : ℚ) else 0)
          ((([{ r0 := 0, r1 := 1, c0 := 0, c1 := 1, block_id := "b1" },
            { r0 := 0, r1 := 1, c0 := 0, c1 := 1, block_id := "b2" }] : List Block).getD j
            blockDefault).block_id) <
        (fun s => if s = "b2" then (1 : ℚ) else 0)
          ((([{ r0 := 0, r1 := 1, c0 := 0, c1 := 1, block_id := "b1" },
            { r0 := 0, r1 := 1, c0 := 0, c1 := 1, block_id := "b2" }] : List Block).getD i
            blockDefault).block_id))) ∧
    ((markMain [{ r0 := 0, r1 := 1, c0 := 0, c1 := 1, block_id := "b1" },
        { r0 := 0, r1 := 1, c0 := 0, c1 := 1, block_id := "b2" }]
        (fun s => if s = "b2" then 1 else 0)).filter (fun p => p.2)).length ≤ 1 :=
  main_table_selection _ _ (by decide) (by decide)

/-- C9: the validation prefix of parse_file raises InvalidArgument exactly
for a CSV path with a non-empty sheet list or an xlsx/xlsb path with an
absent or empty one, raises UnsupportedFormat exactly when the lower-cased
path suffix is none of .xlsx, .xlsb, .csv, and on either error performs no
effect: no run directory, log sink, file read or output write. -/
theorem parse_file_validation (p : String) (sheets : Option (List String)) :
    ((parseFileObservable p sheets).2 = some ErrorKind.invalidArgument ↔
      (detectFormat p = Except.ok FileFormat.csv ∧
        ∃ l, sheets = some l ∧ l ≠ []) ∨
      ((detectFormat p = Except.ok FileFormat.xlsx ∨
        detectFormat p = Except.ok FileFormat.xlsb) ∧
        (sheets = none ∨ sheets = some []))) ∧
    ((parseFileObservable p sheets).2 = some ErrorKind.unsupportedFormat ↔
      lowerStr (pathSuffix p) ∉ ([".xlsx", ".xlsb", ".csv"] : List String)) ∧
    ((parseFileObservable p sheets).1 = [] ∨
      (parseFileObservable p sheets).2 = none) := by
  unfold parseFileObservable parseFileStart detectFormat
  by_cases h1 : lowerStr (pathSuffix p) = ".xlsx"
  · simp only [if_pos h1]
    rcases sheets with _ | ⟨_ | ⟨x, xs⟩⟩ <;> simp [h1]
  · by_cases h2 : lowerStr (pathSuffix p) = ".xlsb"
    · simp only [if_neg h1, if_pos h2]
      rcases sheets with _ | ⟨_ | ⟨x, xs⟩⟩ <;> simp [h1, h2]
    · by_cases h3 : lowerStr (pathSuffix p) = ".csv"
      · simp only [if_neg h1, if_neg h2, if_pos h3]
        rcases sheets with _ | ⟨_ | ⟨x, xs⟩⟩ <;> simp [h1, h2, h3]
      · simp only [if_neg h1, if_neg h2, if_neg h3]
        rcases sheets with _ | ⟨_ | ⟨x, xs⟩⟩ <;> simp [h1, h2, h3]

/-- All occupancy entries are 0/1 flags (boundedly stated on the stored
rows so that it is decidable on concrete data). -/
def entriesLE1 (O : Mat) : Prop := ∀ row ∈ O, ∀ x ∈ row, x ≤ 1

instance (O : Mat) : Decidable (entriesLE1 O) := List.decidableBAll _ O

/-- All border flags are 0/1 flags. -/
def flagsLE1 : Option BMat → Prop
  | none => True
  | some bm => ∀ plane ∈ bm, ∀ cell ∈ plane, ∀ f ∈ cell, f ≤ 1

instance : ∀ B : Option BMat, Decidable (flagsLE1 B)
  | none => isTrue trivial
  | some bm => List.decidableBAll _ bm

theorem get_le_one_of_entries (O : Mat) (h : entriesLE1 O) (r c : Nat) :
    Mat.get O r c ≤ 1 := by
  unfold Mat.get
  rcases Nat.lt_or_ge r O.length with hr | hr
  · have hrow : O.getD r [] ∈ O := by
      rw [List.getD_eq_getElem O [] hr]
      exact List.getElem_mem hr
    rcases Nat.lt_or_ge c (O.getD r []).length with hc | hc
    · have : (O.getD r []).getD c 0 ∈ O.getD r [] := by
        rw [List.getD_eq_getElem _ 0 hc]
        exact List.getElem_mem hc
      exact h _ hrow _ this
    · rw [List.getD_eq_default _ 0 hc]
      omega
  · rw [List.getD_eq_default O [] hr]
    simp

theorem flag_le_one_of_flags (bm : BMat) (h : flagsLE1 (some bm)) (r c i : Nat) :
    BMat.flag bm r c i ≤ 1 := by
  unfold BMat.flag BMat.cell
  rcases Nat.lt_or_ge r bm.length with hr | hr
  · have hrow : bm.getD r [] ∈ bm := by
      rw [List.getD_eq_getElem bm [] hr]
      exact List.getElem_mem hr
    rcases Nat.lt_or_ge c (bm.getD r []).length with hc | hc
    · have hcell : (bm.getD r []).getD c [] ∈ bm.getD r [] := by
        rw [List.getD_eq_getElem _ [] hc]
        exact List.getElem_mem hc
      rcases Nat.lt_or_ge i ((bm.getD r []).getD c []).length with hi | hi
      · have : ((bm.getD r []).getD c []).getD i 0 ∈ (bm.getD r []).getD c [] := by
          rw [List.getD_eq_getElem _ 0 hi]
          exact List.getElem_mem hi
        exact h _ hrow _ hcell _ this
      · rw [List.getD_eq_default _ 0 hi]
        omega
    · rw [List.getD_eq_default _ [] hc]
      simp
  · rw [List.getD_eq_default bm [] hr]
    simp [List.getD]

theorem regionSum_le_area (O : Mat) (b : Block)
    (h : ∀ r c, Mat.get O r c ≤ 1) : regionSum O b ≤ b.area := by
  unfold regionSum
  have hrow : ∀ r, ((List.range' b.c0 (b.c1 - b.c0)).map
      (fun c => Mat.get O r c)).sum ≤ b.c1 - b.c0 := by
    intro r
    have := List.sum_le_card_nsmul ((List.range' b.c0 (b.c1 - b.c0)).map
      (fun c => Mat.get O r c)) 1 (by
        intro x hx
        rcases List.mem_map.mp hx with ⟨c, _, hc⟩
        rw [← hc]
        exact h r c)
    simpa using this
  have houter := List.sum_le_card_nsmul ((List.range' b.r0 (b.r1 - b.r0)).map
    (fun r => ((List.range' b.c0 (b.c1 - b.c0)).map (fun c => Mat.get O r c)).sum))
    (b.c1 - b.c0) (by
      intro x hx
      rcases List.mem_map.mp hx with ⟨r, _, hr⟩
      rw [← hr]
      exact hrow r)
  simpa [Block.area, Block.height, Block.width, Nat.mul_comm] using houter

theorem ratio_bounds (x y : Nat) (hxy : x ≤ y) :
    0 ≤ (x : ℚ) / max y 1 ∧ (x : ℚ) / max y 1 ≤ 1 := by
  have hpos : (0 : ℚ) < max y 1 := by
    have : (1 : ℚ) ≤ max (y : ℚ) 1 := le_max_right _ _
    have hcast : ((max y 1 : Nat) : ℚ) = max (y : ℚ) 1 := by
      push_cast
      rfl
    rw [hcast]
    linarith
  constructor
  · apply div_nonneg (by positivity)
    linarith
  · rw [div_le_one hpos]
    have h1 : (x : ℚ) ≤ y := by exact_mod_cast hxy
    have h2 : (y : ℚ) ≤ max (y : ℚ) 1 := le_max_left _ _
    have hcast : ((max y 1 : Nat) : ℚ) = max (y : ℚ) 1 := by
      push_cast
      rfl
    rw [hcast]
    linarith

theorem ratio_boundsQ (x : ℚ) (y : Nat) (h0 : 0 ≤ x) (hxy : x ≤ (y : ℚ)) :
    0 ≤ x / max y 1 ∧ x / max y 1 ≤ 1 := by
  have hcast : ((max y 1 : Nat) : ℚ) = max (y : ℚ) 1 := by
    push_cast
    rfl
  have hpos : (0 : ℚ) < ((max y 1 : Nat) : ℚ) := by
    rw [hcast]
    have : (1 : ℚ) ≤ max (y : ℚ) 1 := le_max_right _ _
    linarith
  constructor
  · exact div_nonneg h0 (le_of_lt hpos)
  · rw [div_le_one hpos, hcast]
    have h2 : (y : ℚ) ≤ max (y : ℚ) 1 := le_max_left _ _
    linarith

theorem typeConsistencyAll_bounds (b : Block) (T : Mat) :
    0 ≤ typeConsistencyAll b T ∧ typeConsistencyAll b T ≤ 1 := by
  unfold typeConsistencyAll
  have hterm : ∀ c : Nat,
      0 ≤ (let ts := colTypes b T c
        if ts = [] then (0 : ℚ)
        else ((ts.toFinset.sup (fun t => ts.count t) : ℕ) : ℚ) / ts.length) ∧
      (let ts := colTypes b T c
        if ts = [] then (0 : ℚ)
        else ((ts.toFinset.sup (fun t => ts.count t) : ℕ) : ℚ) / ts.length) ≤ 1 := by
    intro c
    by_cases hts : colTypes b T c = []
    · simp [hts]
    · simp only [hts, if_neg, if_false]
      have hlen : 0 < (colTypes b T c).length := List.length_pos.mpr hts
      have hsup : ((colTypes b T c).toFinset.sup
          (fun t => (colTypes b T c).count t)) ≤ (colTypes b T c).length := by
        apply Finset.sup_le
        intro t _
        exact List.count_le_length t (colTypes b T c)
      constructor
      · apply div_nonneg (by positivity) (by positivity)
      · rw [div_le_one (by exact_mod_cast hlen)]
        exact_mod_cast hsup
  have hsum0 : 0 ≤ ((List.range' b.c0 (b.c1 - b.c0)).map (fun c =>
      let ts := colTypes b T c
      if ts = [] then (0 : ℚ)
      else ((ts.toFinset.sup (fun t => ts.count t) : ℕ) : ℚ) / ts.length)).sum := by
    apply List.sum_nonneg
    intro x hx
    rcases List.mem_map.mp hx with ⟨c, _, hc⟩
    rw [← hc]
    exact (hterm c).1
  have hsum1 : ((List.range' b.c0 (b.c1 - b.c0)).map (fun c =>
      let ts := colTypes b T c
      if ts = [] then (0 : ℚ)
      else ((ts.toFinset.sup (fun t => ts.count t) : ℕ) : ℚ) / ts.length)).sum ≤
      ((b.width : ℚ)) := by
    have := List.sum_le_card_nsmul ((List.range' b.c0 (b.c1 - b.c0)).map (fun c =>
      let ts := colTypes b T c
      if ts = [] then (0 : ℚ)
      else ((ts.toFinset.sup (fun t => ts.count t) : ℕ) : ℚ) / ts.length)) 1 (by
        intro x hx
        rcases List.mem_map.mp hx with ⟨c, _, hc⟩
        rw [← hc]
        exact (hterm c).2)
    have hlen : ((List.range' b.c0 (b.c1 - b.c0)).map (fun c =>
        let ts := colTypes b T c
        if ts = [] then (0 : ℚ)
        else ((ts.toFinset.sup (fun t => ts.count t) : ℕ) : ℚ) / ts.length)).length =
        b.width := by
      rw [List.length_map, List.length_range']
      rfl
    rw [hlen] at this
    simpa using this
  exact ratio_boundsQ _ b.width hsum0 hsum1

theorem border_fold_le_aux (bm : BMat) (hbm : flagsLE1 (some bm)) (b : Block)
    (l : List (Nat × Nat)) :
    ∀ acc : Nat × Nat, acc.1 ≤ acc.2 →
    (l.foldl (fun (acc : Nat × Nat) rc =>
      if rc.1 < bm.nRows ∧ rc.2 < bm.nCols then
        let add :=
          (if rc.1 = b.r0 then BMat.flag bm rc.1 rc.2 0 else 0) +
          (if rc.1 = b.r1 - 1 then BMat.flag bm rc.1 rc.2 2 else 0) +
          (if rc.2 = b.c0 then BMat.flag bm rc.1 rc.2 3 else 0) +
          (if rc.2 = b.c1 - 1 then BMat.flag bm rc.1 rc.2 1 else 0)
        (acc.1 + add, acc.2 + 4)
      else acc) acc).1 ≤
    (l.foldl (fun (acc : Nat × Nat) rc =>
      if rc.1 < bm.nRows ∧ rc.2 < bm.nCols then
        let add :=
          (if rc.1 = b.r0 then BMat.flag bm rc.1 rc.2 0 else 0) +
          (if rc.1 = b.r1 - 1 then BMat.flag bm rc.1 rc.2 2 else 0) +
          (if rc.2 = b.c0 then BMat.flag bm rc.1 rc.2 3 else 0) +
          (if rc.2 = b.c1 - 1 then BMat.flag bm rc.1 rc.2 1 else 0)
        (acc.1 + add, acc.2 + 4)
      else acc) acc).2 := by
  induction l with
  | nil => intro acc h; exact h
  | cons rc rest ih =>
    intro acc h
    simp only [List.foldl_cons]
    by_cases hin : rc.1 < bm.nRows ∧ rc.2 < bm.nCols
    · simp only [if_pos hin]
      apply ih
      have h0 : (if rc.1 = b.r0 then BMat.flag bm rc.1 rc.2 0 else 0) ≤ 1 := by
        by_cases hc : rc.1 = b.r0
        · rw [if_pos hc]; exact flag_le_one_of_flags bm hbm _ _ _
        · rw [if_neg hc]; omega
      have h2 : (if rc.1 = b.r1 - 1 then BMat.flag bm rc.1 rc.2 2 else 0) ≤ 1 := by
        by_cases hc : rc.1 = b.r1 - 1
        · rw [if_pos hc]; exact flag_le_one_of_flags bm hbm _ _ _
        · rw [if_neg hc]; omega
      have h3 : (if rc.2 = b.c0 then BMat.flag bm rc.1 rc.2 3 else 0) ≤ 1 := by
        by_cases hc : rc.2 = b.c0
        · rw [if_pos hc]; exact flag_le_one_of_flags bm hbm _ _ _
        · rw [if_neg hc]; omega
      have h1 : (if rc.2 = b.c1 - 1 then BMat.flag bm rc.1 rc.2 1 else 0) ≤ 1 := by
        by_cases hc : rc.2 = b.c1 - 1
        · rw [if_pos hc]; exact flag_le_one_of_flags bm hbm _ _ _
        · rw [if_neg hc]; omega
      show acc.1 + _ ≤ acc.2 + 4
      omega
    · simp only [if_neg hin]
      exact ih acc h

theorem borderFoldPair_le (bm : BMat) (hbm : flagsLE1 (some bm)) (b : Block) :
    (borderFoldPair b bm).1 ≤ (borderFoldPair b bm).2 :=
  border_fold_le_aux bm hbm b _ (0, 0) (le_refl 0)

/-- C10: with 0/1 occupancy entries, 0/1 border flags and a bbox inside
the shapes of O and T, every component of the computed TableScore lies in
the unit interval, and so does the weighted total. -/
theorem table_score_bounded (b : Block) (O T : Mat) (B : Option BMat)
    (headerRows : List Nat) (hO : entriesLE1 O) (hB : flagsLE1 B)
    (_hbox : b.r1 ≤ O.nRows ∧ b.c1 ≤ O.nCols ∧ b.r1 ≤ T.nRows ∧ b.c1 ≤ T.nCols) :
    (0 ≤ (calculateTableScore b O T B headerRows).density ∧
      (calculateTableScore b O T B headerRows).density ≤ 1) ∧
    (0 ≤ (calculateTableScore b O T B headerRows).type_consistency ∧
      (calculateTableScore b O T B headerRows).type_consistency ≤ 1) ∧
    (0 ≤ (calculateTableScore b O T B headerRows).border_completeness ∧
      (calculateTableScore b O T B headerRows).border_completeness ≤ 1) ∧
    (0 ≤ (calculateTableScore b O T B headerRows).header_completeness ∧
      (calculateTableScore b O T B headerRows).header_completeness ≤ 1) ∧
    (0 ≤ (calculateTableScore b O T B headerRows).total ∧
      (calculateTableScore b O T B headerRows).total ≤ 1) := by
  have hfd : (calculateTableScore b O T B headerRows).density =
      (regionSum O b : ℚ) / max b.area 1 := rfl
  have hdens : 0 ≤ (calculateTableScore b O T B headerRows).density ∧
      (calculateTableScore b O T B headerRows).density ≤ 1 := by
    rw [hfd]
    exact ratio_bounds (regionSum O b) b.area
      (regionSum_le_area O b (get_le_one_of_entries O hO))
  have htc : 0 ≤ (calculateTableScore b O T B headerRows).type_consistency ∧
      (calculateTableScore b O T B headerRows).type_consistency ≤ 1 := by
    rw [type_consistency_counts_empty_cells]
    exact typeConsistencyAll_bounds b T
  have hbc : 0 ≤ (calculateTableScore b O T B headerRows).border_completeness ∧
      (calculateTableScore b O T B headerRows).border_completeness ≤ 1 := by
    rcases B with _ | bm
    · have hfb : (calculateTableScore b O T none headerRows).border_completeness =
          1 / 2 := rfl
      rw [hfb]
      norm_num
    · have hfb : (calculateTableScore b O T (some bm) headerRows).border_completeness =
          ((borderFoldPair b bm).1 : ℚ) / max (borderFoldPair b bm).2 1 := rfl
      rw [hfb]
      exact ratio_bounds _ _ (borderFoldPair_le bm hB b)
  have hhc : 0 ≤ (calculateTableScore b O T B headerRows).header_completeness ∧
      (calculateTableScore b O T B headerRows).header_completeness ≤ 1 := by
    have hfh : (calculateTableScore b O T B headerRows).header_completeness =
        if headerRows.isEmpty then (0 : ℚ)
        else ((headerRows.filter (fun r => b.r0 ≤ r ∧ r < b.r1)).length : ℚ) /
          max headerRows.length 1 := rfl
    rw [hfh]
    by_cases he : headerRows.isEmpty
    · simp [he]
    · rw [if_neg he]
      exact ratio_bounds _ _ (List.length_filter_le _ _)
  have hft : (calculateTableScore b O T B headerRows).total =
      (calculateTableScore b O T B headerRows).density * (3 / 10) +
      (calculateTableScore b O T B headerRows).type_consistency * (1 / 4) +
      (calculateTableScore b O T B headerRows).border_completeness * (1 / 5) +
      (calculateTableScore b O T B headerRows).header_completeness * (1 / 4) := rfl
  refine ⟨hdens, htc, hbc, hhc, ?_⟩
  rw [hft]
  constructor
  · nlinarith [hdens.1, htc.1, hbc.1, hhc.1]
  · nlinarith [hdens.2, htc.2, hbc.2, hhc.2, hdens.1, htc.1, hbc.1, hhc.1]

/-- Witness for the C10 theorem on a fully occupied bordered single cell. -/
theorem table_score_bounded_witness :
    (0 ≤ (calculateTableScore { r0 := 0, r1 := 1, c0 := 0, c1 := 1 } [[1]] [[1]]
        (some [[[1, 1, 1, 1]]]) [0]).density ∧
      (calculateTableScore { r0 := 0, r1 := 1, c0 := 0, c1 := 1 } [[1]] [[1]]
        (some [[[1, 1, 1, 1]]]) [0]).density ≤ 1) ∧
    (0 ≤ (calculateTableScore { r0 := 0, r1 := 1, c0 := 0, c1 := 1 } [[1]] [[1]]
        (some [[[1, 1, 1, 1]]]) [0]).type_consistency ∧
      (calculateTableScore { r0 := 0, r1 := 1, c0 := 0, c1 := 1 } [[1]] [[1]]
        (some [[[1, 1, 1, 1]]]) [0]).type_consistency ≤ 1) ∧
    (0 ≤ (calculateTableScore { r0 := 0, r1 := 1, c0 := 0, c1 := 1 } [[1]] [[1]]
        (some [[[1, 1, 1, 1]]]) [0]).border_completeness ∧
      (calculateTableScore { r0 := 0, r1 := 1, c0 := 0, c1 := 1 } [[1]] [[1]]
        (some [[[1, 1, 1, 1]]]) [0]).border_completeness ≤ 1) ∧
    (0 ≤ (calculateTableScore { r0 := 0, r1 := 1, c0 := 0, c1 := 1 } [[1]] [[1]]
        (some [[[1, 1, 1, 1]]]) [0]).header_completeness ∧
      (calculateTableScore { r0 := 0, r1 := 1, c0 := 0, c1 := 1 } [[1]] [[1]]
        (some [[[1, 1, 1, 1]]]) [0]).header_completeness ≤ 1) ∧
    (0 ≤ (calculateTableScore { r0 := 0, r1 := 1, c0 := 0, c1 := 1 } [[1]] [[1]]
        (some [[[1, 1, 1, 1]]]) [0]).total ∧
      (calculateTableScore { r0 := 0, r1 := 1, c0 := 0, c1 := 1 } [[1]] [[1]]
        (some [[[1, 1, 1, 1]]]) [0]).total ≤ 1) :=
  table_score_bounded { r0 := 0, r1 := 1, c0 := 0, c1 := 1 } [[1]] [[1]]
    (some [[[1, 1, 1, 1]]]) [0] (by decide) (by decide)
    ⟨by decide, by decide, by decide, by decide⟩

/-- A small concrete configuration used by concrete evaluations. -/
def cfgW : ParserConfig :=
  { min_block_height := 1, min_block_width := 1, hole_tolerance_rows := 0,
    hole_tolerance_cols := 0, density_threshold := 1 / 2,
    rectangularity_threshold := 1 / 2, mdl_weights := (2 / 5, 3 / 10, 3 / 10),
    max_header_rows := 3, header_style_weight := 3 / 10, keep_leaf_only := true }

/-- C8 counterexample: a single blank in-bounds cell with no detected
header rows yields the leaf name given by str() of the cell, the empty
string, not the fallback name Column0. -/
theorem parse_headers_fallback_cex :
    detectHeaderRows cfgW FileFormat.csv [[some ""]]
      { r0 := 0, r1 := 1, c0 := 0, c1 := 1 } [[0]] [[0]] [[0]] = [] ∧
    pyStrip (strOfCell (dfGet [[some ""]] 0 0)) = "" ∧
    (parseHeaders cfgW FileFormat.csv [[some ""]]
      { r0 := 0, r1 := 1, c0 := 0, c1 := 1 } [[0]] [[0]] [[0]] []).leaf_columns = [""] ∧
    (parseHeaders cfgW FileFormat.csv [[some ""]]
      { r0 := 0, r1 := 1, c0 := 0, c1 := 1 } [[0]] [[0]] [[0]] []).leaf_columns ≠
      ["Column" ++ natToStr 0] :=
  ⟨by decide, by decide, by decide, by decide⟩

/-- C8 amended: when no row passes the header test, parse_headers returns
empty header rows and takes the leaf names from str() of the block's
first-row cells; the fallback name Column followed by the index applies
exactly when the position lies outside the frame's bounds, so blank
in-bounds cells keep their blank stringified value. -/
theorem parse_headers_no_header_fallback (cfg : ParserConfig) (fmt : FileFormat)
    (df : CellGrid) (b : Block) (O : Mat) (S : QMat) (T : Mat)
    (mc : List MergedRange)
    (h : detectHeaderRows cfg fmt df b O S T = []) :
    (parseHeaders cfg fmt df b O S T mc).header_rows = [] ∧
    (parseHeaders cfg fmt df b O S T mc).leaf_columns.length = b.c1 - b.c0 ∧
    ∀ i, i < b.c1 - b.c0 →
      (parseHeaders cfg fmt df b O S T mc).leaf_columns.getD i "" =
        if b.r0 < dfRows df ∧ b.c0 + i < dfCols df then
          strOfCell (dfGet df b.r0 (b.c0 + i))
        else "Column" ++ natToStr (b.c0 + i) := by
  have hp : parseHeaders cfg fmt df b O S T mc =
      { header_rows := []
        header_map := []
        leaf_columns := (List.range' b.c0 (b.c1 - b.c0)).map (fun c =>
          if b.r0 < dfRows df ∧ c < dfCols df then strOfCell (dfGet df b.r0 c)
          else "Column" ++ natToStr c) } := by
    unfold parseHeaders
    rw [h]
    rfl
  rw [hp]
  refine ⟨rfl, by simp, ?_⟩
  intro i hi
  have hlen : i < ((List.range' b.c0 (b.c1 - b.c0)).map (fun c =>
      if b.r0 < dfRows df ∧ c < dfCols df then strOfCell (dfGet df b.r0 c)
      else "Column" ++ natToStr c)).length := by
    simpa using hi
  rw [List.getD_eq_getElem _ "" hlen]
  simp only [List.getElem_map, List.getElem_range', Nat.one_mul]

/-- Witness for the C8 amended theorem on a one-cell numeric frame with
no header rows. -/
theorem parse_headers_no_header_fallback_witness :
    (parseHeaders cfgW FileFormat.csv [[some "5"]]
      { r0 := 0, r1 := 1, c0 := 0, c1 := 1 } [[1]] [[0]] [[2]] []).header_rows = [] ∧
    (parseHeaders cfgW FileFormat.csv [[some "5"]]
      { r0 := 0, r1 := 1, c0 := 0, c1 := 1 } [[1]] [[0]] [[2]] []).leaf_columns.length =
      (1 : Nat) - 0 ∧
    ∀ i, i < (1 : Nat) - 0 →
      (parseHeaders cfgW FileFormat.csv [[some "5"]]
        { r0 := 0, r1 := 1, c0 := 0, c1 := 1 } [[1]] [[0]] [[2]] []).leaf_columns.getD i "" =
        if 0 < dfRows [[some "5"]] ∧ 0 + i < dfCols [[some "5"]] then
          strOfCell (dfGet [[some "5"]] 0 (0 + i))
        else "Column" ++ natToStr (0 + i) :=
  parse_headers_no_header_fallback cfgW FileFormat.csv [[some "5"]]
    { r0 := 0, r1 := 1, c0 := 0, c1 := 1 } [[1]] [[0]] [[2]] [] (by decide)

/-- A block bbox lying inside the grid. -/
def BboxOK (O : Mat) (b : Block) : Prop :=
  b.r0 ≤ b.r1 ∧ b.r1 ≤ O.nRows ∧ b.c0 ≤ b.c1 ∧ b.c1 ≤ O.nCols

/-- The block invariant split_blocks maintains: minimum dimensions and an
in-grid bbox. -/
def ValidBlock (cfg : ParserConfig) (O : Mat) (b : Block) : Prop :=
  cfg.min_block_height ≤ b.height ∧ cfg.min_block_width ≤ b.width ∧ BboxOK O b

theorem neighbors_bounds (tr tc nRows nCols r c : Nat) :
    ∀ p ∈ neighbors tr tc nRows nCols r c, p.1 < nRows ∧ p.2 < nCols := by
  intro p hp
  simp only [neighbors, List.mem_flatMap, List.mem_filterMap] at hp
  obtain ⟨dr, _, dc, _, hpc⟩ := hp
  by_cases h0 : dr = 0 ∧ dc = 0
  · rw [if_pos h0] at hpc
    simp at hpc
  · rw [if_neg h0] at hpc
    by_cases hb : 0 ≤ (r : Int) + dr ∧ (r : Int) + dr < (nRows : Int) ∧
        0 ≤ (c : Int) + dc ∧ (c : Int) + dc < (nCols : Int)
    · rw [if_pos hb] at hpc
      obtain ⟨hb1, hb2, hb3, hb4⟩ := hb
      cases hpc
      constructor
      · simp only []
        omega
      · simp only []
        omega
    · rw [if_neg hb] at hpc
      simp at hpc

theorem bfs_push_bounds (O : Mat) (nRows nCols : Nat) (nbrs : List (Nat × Nat))
    (hn : ∀ p ∈ nbrs, p.1 < nRows ∧ p.2 < nCols) :
    ∀ (acc : List (Nat × Nat) × List (Nat × Nat)),
    (∀ p ∈ acc.2, p.1 < nRows ∧ p.2 < nCols) →
    ∀ p ∈ (nbrs.foldl (fun (acc : List (Nat × Nat) × List (Nat × Nat)) p =>
      if O.get p.1 p.2 = 1 ∧ p ∉ acc.1 then (p :: acc.1, acc.2 ++ [p]) else acc)
      acc).2, p.1 < nRows ∧ p.2 < nCols := by
  induction nbrs with
  | nil => intro acc hacc p hp; exact hacc p hp
  | cons x xs ih =>
    intro acc hacc p hp
    rw [List.foldl_cons] at hp
    by_cases hc : O.get x.1 x.2 = 1 ∧ x ∉ acc.1
    · rw [if_pos hc] at hp
      refine ih (fun q hq => hn q (List.mem_cons_of_mem x hq)) _ ?_ p hp
      intro q hq
      rcases List.mem_append.mp hq with hq | hq
      · exact hacc q hq
      · rw [List.mem_singleton.mp hq]
        exact hn x (List.mem_cons_self x xs)
    · rw [if_neg hc] at hp
      exact ih (fun q hq => hn q (List.mem_cons_of_mem x hq)) acc hacc p hp

theorem bfsLoop_bounds (O : Mat) (tr tc nRows nCols : Nat) :
    ∀ (fuel : Nat) (visited queue : List (Nat × Nat)) (minR maxR minC maxC : Nat),
    (∀ p ∈ queue, p.1 < nRows ∧ p.2 < nCols) →
    minR ≤ maxR → maxR < nRows → minC ≤ maxC → maxC < nCols →
    (bfsLoop O tr tc nRows nCols fuel visited queue (minR, maxR, minC, maxC)).2.1 ≤
      (bfsLoop O tr tc nRows nCols fuel visited queue (minR, maxR, minC, maxC)).2.2.1 ∧
    (bfsLoop O tr tc nRows nCols fuel visited queue (minR, maxR, minC, maxC)).2.2.1 < nRows ∧
    (bfsLoop O tr tc nRows nCols fuel visited queue (minR, maxR, minC, maxC)).2.2.2.1 ≤
      (bfsLoop O tr tc nRows nCols fuel visited queue (minR, maxR, minC, maxC)).2.2.2.2 ∧
    (bfsLoop O tr tc nRows nCols fuel visited queue (minR, maxR, minC, maxC)).2.2.2.2 < nCols := by
  intro fuel
  induction fuel with
  | zero =>
    intro visited queue minR maxR minC maxC _ h1 h2 h3 h4
    exact ⟨h1, h2, h3, h4⟩
  | succ fuel ih =>
    intro visited queue minR maxR minC maxC hq h1 h2 h3 h4
    rcases queue with _ | ⟨⟨r, c⟩, rest⟩
    · exact ⟨h1, h2, h3, h4⟩
    · have hrc := hq (r, c) (List.mem_cons_self _ _)
      simp only [bfsLoop]
      refine ih _ _ _ _ _ _ ?_ ?_ ?_ ?_ ?_
      · exact bfs_push_bounds O nRows nCols _
          (neighbors_bounds tr tc nRows nCols r c) (visited, rest)
          (fun p hp => hq p (List.mem_cons_of_mem _ hp))
      · omega
      · have := hrc.1
        omega
      · omega
      · have := hrc.2
        omega

theorem get_one_bounds (O : Mat) (hrect : O.Rect) (r c : Nat)
    (h : Mat.get O r c = 1) : r < O.nRows ∧ c < O.nCols := by
  unfold Mat.get at h
  by_cases hr : r < O.length
  · have hrow : O.getD r [] ∈ O := by
      rw [List.getD_eq_getElem O [] hr]
      exact List.getElem_mem hr
    by_cases hc : c < (O.getD r []).length
    · refine ⟨hr, ?_⟩
      rw [← hrect _ hrow]
      exact hc
    · rw [List.getD_eq_default _ 0 (Nat.le_of_not_lt hc)] at h
      omega
  · rw [List.getD_eq_default O [] (Nat.le_of_not_lt hr)] at h
    simp at h

theorem bfsConnected_bbox (cfg : ParserConfig) (O : Mat)
    (visited : List (Nat × Nat)) (sr sc : Nat) (hr : sr < O.nRows)
    (hc : sc < O.nCols) : BboxOK O (bfsConnected cfg O visited sr sc).2 := by
  have hinv := bfsLoop_bounds O cfg.hole_tolerance_rows cfg.hole_tolerance_cols
    O.nRows O.nCols (O.nRows * O.nCols + 1) ((sr, sc) :: visited) [(sr, sc)]
    sr sr sc sc
    (by
      intro p hp
      rw [List.mem_singleton.mp hp]
      exact ⟨hr, hc⟩)
    (le_refl sr) hr (le_refl sc) hc
  obtain ⟨i1, i2, i3, i4⟩ := hinv
  unfold bfsConnected BboxOK
  dsimp only []
  refine ⟨?_, ?_, ?_, ?_⟩ <;> omega

theorem connectedComponents_bbox (cfg : ParserConfig) (O : Mat) (hrect : O.Rect) :
    ∀ b ∈ connectedComponents cfg O, BboxOK O b := by
  unfold connectedComponents
  have hinner : ∀ (r : Nat) (l : List Nat) (acc : List (Nat × Nat) × List Block),
      (∀ b ∈ acc.2, BboxOK O b) →
      ∀ b ∈ (l.foldl (fun (acc : List (Nat × Nat) × List Block) c =>
        if Mat.get O r c = 1 ∧ (r, c) ∉ acc.1 then
          let out := bfsConnected cfg O acc.1 r c
          (out.1, acc.2 ++ [out.2])
        else acc) acc).2, BboxOK O b := by
    intro r l
    induction l with
    | nil => intro acc hacc b hb; exact hacc b hb
    | cons c cs ih =>
      intro acc hacc b hb
      rw [List.foldl_cons] at hb
      by_cases hc : Mat.get O r c = 1 ∧ (r, c) ∉ acc.1
      · rw [if_pos hc] at hb
        refine ih _ ?_ b hb
        intro b' hb'
        rcases List.mem_append.mp hb' with hb' | hb'
        · exact hacc b' hb'
        · rw [List.mem_singleton.mp hb']
          have hbd := get_one_bounds O hrect r c hc.1
          exact bfsConnected_bbox cfg O acc.1 r c hbd.1 hbd.2
      · rw [if_neg hc] at hb
        exact ih acc hacc b hb
  have houter : ∀ (l : List Nat) (acc : List (Nat × Nat) × List Block),
      (∀ b ∈ acc.2, BboxOK O b) →
      ∀ b ∈ (l.foldl (fun acc r =>
        (List.range O.nCols).foldl (fun (acc : List (Nat × Nat) × List Block) c =>
          if Mat.get O r c = 1 ∧ (r, c) ∉ acc.1 then
            let out := bfsConnected cfg O acc.1 r c
            (out.1, acc.2 ++ [out.2])
          else acc) acc) acc).2, BboxOK O b := by
    intro l
    induction l with
    | nil => intro acc hacc b hb; exact hacc b hb
    | cons r rs ih =>
      intro acc hacc b hb
      rw [List.foldl_cons] at hb
      exact ih _ (fun b' hb' => hinner r (List.range O.nCols) acc hacc b' hb') b hb
  intro b hb
  exact houter (List.range O.nRows) ([], []) (by simp) b hb

theorem gaps_row_fold (cfg : ParserConfig) (O : Mat) (b : Block)
    (hb : ValidBlock cfg O b) :
    ∀ (es : List Nat) (acc : List Block × Nat),
    (∀ e ∈ es, acc.2 ≤ e) → es.Pairwise (· < ·) →
    (∀ e ∈ es, e < b.r1 - b.r0) →
    (∀ s ∈ acc.1, ValidBlock cfg O s) → acc.2 ≤ b.r1 - b.r0 →
    (∀ s ∈ (es.foldl (fun (acc : List Block × Nat) er =>
      if cfg.min_block_height ≤ er - acc.2 then
        (acc.1 ++ [{ r0 := b.r0 + acc.2, r1 := b.r0 + er, c0 := b.c0, c1 := b.c1 }],
          er + 1)
      else (acc.1, er + 1)) acc).1, ValidBlock cfg O s) ∧
    (es.foldl (fun (acc : List Block × Nat) er =>
      if cfg.min_block_height ≤ er - acc.2 then
        (acc.1 ++ [{ r0 := b.r0 + acc.2, r1 := b.r0 + er, c0 := b.c0, c1 := b.c1 }],
          er + 1)
      else (acc.1, er + 1)) acc).2 ≤ b.r1 - b.r0 := by
  intro es
  induction es with
  | nil => intro acc _ _ _ hval hle; exact ⟨hval, hle⟩
  | cons e es ih =>
    intro acc hstart hpw helt hval hle
    rw [List.foldl_cons]
    have he := helt e (List.mem_cons_self _ _)
    have hse := hstart e (List.mem_cons_self _ _)
    have hpw' := (List.pairwise_cons.mp hpw).2
    have hhead := (List.pairwise_cons.mp hpw).1
    by_cases hcut : cfg.min_block_height ≤ e - acc.2
    · rw [if_pos hcut]
      refine ih _ ?_ hpw' (fun x hx => helt x (List.mem_cons_of_mem _ hx)) ?_ (by omega)
      · intro x hx
        have := hhead x hx
        omega
      · intro s hs
        rcases List.mem_append.mp hs with hs | hs
        · exact hval s hs
        · rw [List.mem_singleton.mp hs]
          obtain ⟨hminh, hminw, hbr, hrR, hbc, hcC⟩ := hb
          refine ⟨?_, ?_, ?_, ?_, ?_, ?_⟩
          · show cfg.min_block_height ≤ (b.r0 + e) - (b.r0 + acc.2)
            omega
          · exact hminw
          · show b.r0 + acc.2 ≤ b.r0 + e
            omega
          · show b.r0 + e ≤ O.nRows
            omega
          · exact hbc
          · exact hcC
    · rw [if_neg hcut]
      refine ih _ ?_ hpw' (fun x hx => helt x (List.mem_cons_of_mem _ hx)) hval (by omega)
      intro x hx
      have := hhead x hx
      omega

theorem gaps_col_fold (cfg : ParserConfig) (O : Mat) (b : Block)
    (hb : ValidBlock cfg O b) :
    ∀ (es : List Nat) (acc : List Block × Nat),
    (∀ e ∈ es, acc.2 ≤ e) → es.Pairwise (· < ·) →
    (∀ e ∈ es, e < b.c1 - b.c0) →
    (∀ s ∈ acc.1, ValidBlock cfg O s) → acc.2 ≤ b.c1 - b.c0 →
    (∀ s ∈ (es.foldl (fun (acc : List Block × Nat) ec =>
      if cfg.min_block_width ≤ ec - acc.2 then
        (acc.1 ++ [{ r0 := b.r0, r1 := b.r1, c0 := b.c0 + acc.2, c1 := b.c0 + ec }],
          ec + 1)
      else (acc.1, ec + 1)) acc).1, ValidBlock cfg O s) ∧
    (es.foldl (fun (acc : List Block × Nat) ec =>
      if cfg.min_block_width ≤ ec - acc.2 then
        (acc.1 ++ [{ r0 := b.r0, r1 := b.r1, c0 := b.c0 + acc.2, c1 := b.c0 + ec }],
          ec + 1)
      else (acc.1, ec + 1)) acc).2 ≤ b.c1 - b.c0 := by
  intro es
  induction es with
  | nil => intro acc _ _ _ hval hle; exact ⟨hval, hle⟩
  | cons e es ih =>
    intro acc hstart hpw helt hval hle
    rw [List.foldl_cons]
    have he := helt e (List.mem_cons_self _ _)
    have hse := hstart e (List.mem_cons_self _ _)
    have hpw' := (List.pairwise_cons.mp hpw).2
    have hhead := (List.pairwise_cons.mp hpw).1
    by_cases hcut : cfg.min_block_width ≤ e - acc.2
    · rw [if_pos hcut]
      refine ih _ ?_ hpw' (fun x hx => helt x (List.mem_cons_of_mem _ hx)) ?_ (by omega)
      · intro x hx
        have := hhead x hx
        omega
      · intro s hs
        rcases List.mem_append.mp hs with hs | hs
        · exact hval s hs
        · rw [List.mem_singleton.mp hs]
          obtain ⟨hminh, hminw, hbr, hrR, hbc, hcC⟩ := hb
          refine ⟨hminh, ?_, hbr, hrR, ?_, ?_⟩
          · show cfg.min_block_width ≤ (b.c0 + e) - (b.c0 + acc.2)
            omega
          · show b.c0 + acc.2 ≤ b.c0 + e
            omega
          · show b.c0 + e ≤ O.nCols
            omega
    · rw [if_neg hcut]
      refine ih _ ?_ hpw' (fun x hx => helt x (List.mem_cons_of_mem _ hx)) hval (by omega)
      intro x hx
      have := hhead x hx
      omega

theorem rowSplitsOf_valid (cfg : ParserConfig) (O : Mat) (b : Block)
    (hb : ValidBlock cfg O b) : ∀ s ∈ rowSplitsOf cfg b O, ValidBlock cfg O s := by
  intro s hs
  have hpw : (emptyRowsOf b O).Pairwise (· < ·) := by
    unfold emptyRowsOf
    exact List.Pairwise.sublist (List.filter_sublist _) (List.pairwise_lt_range _)
  have hlt : ∀ e ∈ emptyRowsOf b O, e < b.r1 - b.r0 := by
    intro e he
    unfold emptyRowsOf at he
    have h1 := List.mem_range.mp (List.mem_filter.mp he).1
    obtain ⟨_, _, _, hrR, _, _⟩ := hb
    omega
  have hfold := gaps_row_fold cfg O b hb (emptyRowsOf b O) ([], 0)
    (fun e _ => Nat.zero_le e) hpw hlt (by simp) (Nat.zero_le _)
  unfold rowSplitsOf at hs
  by_cases hcut : cfg.min_block_height ≤ b.r1 -
      (b.r0 + ((emptyRowsOf b O).foldl (fun (acc : List Block × Nat) er =>
        if cfg.min_block_height ≤ er - acc.2 then
          (acc.1 ++ [{ r0 := b.r0 + acc.2, r1 := b.r0 + er, c0 := b.c0, c1 := b.c1 }],
            er + 1)
        else (acc.1, er + 1)) ([], 0)).2)
  · rw [if_pos hcut] at hs
    rcases List.mem_append.mp hs with hs | hs
    · exact hfold.1 s hs
    · rw [List.mem_singleton.mp hs]
      obtain ⟨hminh, hminw, hbr, hrR, hbc, hcC⟩ := hb
      have hstart := hfold.2
      refine ⟨?_, hminw, ?_, ?_, hbc, hcC⟩
      · show cfg.min_block_height ≤ b.r1 - (b.r0 + _)
        exact hcut
      · show b.r0 + _ ≤ b.r1
        omega
      · exact hrR
  · rw [if_neg hcut] at hs
    exact hfold.1 s hs

theorem colSplitsOf_valid (cfg : ParserConfig) (O : Mat) (b : Block)
    (hb : ValidBlock cfg O b) : ∀ s ∈ colSplitsOf cfg b O, ValidBlock cfg O s := by
  intro s hs
  have hpw : (emptyColsOf b O).Pairwise (· < ·) := by
    unfold emptyColsOf
    exact List.Pairwise.sublist (List.filter_sublist _) (List.pairwise_lt_range _)
  have hlt : ∀ e ∈ emptyColsOf b O, e < b.c1 - b.c0 := by
    intro e he
    unfold emptyColsOf at he
    have h1 := List.mem_range.mp (List.mem_filter.mp he).1
    obtain ⟨_, _, _, _, _, hcC⟩ := hb
    omega
  have hfold := gaps_col_fold cfg O b hb (emptyColsOf b O) ([], 0)
    (fun e _ => Nat.zero_le e) hpw hlt (by simp) (Nat.zero_le _)
  unfold colSplitsOf at hs
  by_cases hcut : cfg.min_block_width ≤ b.c1 -
      (b.c0 + ((emptyColsOf b O).foldl (fun (acc : List Block × Nat) ec =>
        if cfg.min_block_width ≤ ec - acc.2 then
          (acc.1 ++ [{ r0 := b.r0, r1 := b.r1, c0 := b.c0 + acc.2, c1 := b.c0 + ec }],
            ec + 1)
        else (acc.1, ec + 1)) ([], 0)).2)
  · rw [if_pos hcut] at hs
    rcases List.mem_append.mp hs with hs | hs
    · exact hfold.1 s hs
    · rw [List.mem_singleton.mp hs]
      obtain ⟨hminh, hminw, hbr, hrR, hbc, hcC⟩ := hb
      have hstart := hfold.2
      refine ⟨hminh, ?_, hbr, hrR, ?_, ?_⟩
      · show cfg.min_block_width ≤ b.c1 - (b.c0 + _)
        exact hcut
      · show b.c0 + _ ≤ b.c1
        omega
      · exact hcC
  · rw [if_neg hcut] at hs
    exact hfold.1 s hs

theorem trySplitByGaps_valid (cfg : ParserConfig) (O : Mat) (b : Block)
    (hb : ValidBlock cfg O b) : ∀ s ∈ trySplitByGaps cfg b O, ValidBlock cfg O s := by
  intro s hs
  unfold trySplitByGaps at hs
  by_cases h1 : 2 ≤ (emptyRowsOf b O).length
  · rw [if_pos h1] at hs
    by_cases h2 : 1 < (rowSplitsOf cfg b O).length
    · rw [if_pos h2] at hs
      exact rowSplitsOf_valid cfg O b hb s hs
    · rw [if_neg h2] at hs
      by_cases h3 : 2 ≤ (emptyColsOf b O).length
      · rw [if_pos h3] at hs
        by_cases h4 : 1 < (colSplitsOf cfg b O).length
        · rw [if_pos h4] at hs
          exact colSplitsOf_valid cfg O b hb s hs
        · rw [if_neg h4] at hs
          rw [List.mem_singleton.mp hs]
          exact hb
      · rw [if_neg h3] at hs
        rw [List.mem_singleton.mp hs]
        exact hb
  · rw [if_neg h1] at hs
    by_cases h3 : 2 ≤ (emptyColsOf b O).length
    · rw [if_pos h3] at hs
      by_cases h4 : 1 < (colSplitsOf cfg b O).length
      · rw [if_pos h4] at hs
        exact colSplitsOf_valid cfg O b hb s hs
      · rw [if_neg h4] at hs
        rw [List.mem_singleton.mp hs]
        exact hb
    · rw [if_neg h3] at hs
      rw [List.mem_singleton.mp hs]
      exact hb

theorem mdlSplitDecision_mem (cfg : ParserConfig) (b : Block) (O : Mat) :
    ∀ s ∈ mdlSplitDecision cfg b O, s ∈ trySplitByGaps cfg b O ∨ s = b := by
  intro s hs
  unfold mdlSplitDecision at hs
  by_cases h1 : densityOf O b < cfg.density_threshold ∨
      calcRectangularity b O < cfg.rectangularity_threshold
  · simp only [if_pos h1] at hs
    by_cases h2 : 1 < (trySplitByGaps cfg b O).length
    · simp only [if_pos h2] at hs
      by_cases h3 : (trySplitByGaps cfg b O).foldl (fun acc s =>
          acc + (cfg.mdl_weights.1 * (1 - densityOf O s) +
            cfg.mdl_weights.2.1 * (1 - calcRectangularity s O))) 0 +
          cfg.mdl_weights.2.2 * (trySplitByGaps cfg b O).length <
          cfg.mdl_weights.1 * (1 - densityOf O b) +
          cfg.mdl_weights.2.1 * (1 - calcRectangularity b O) +
          cfg.mdl_weights.2.2 * 1
      · rw [if_pos h3] at hs
        exact Or.inl hs
      · rw [if_neg h3] at hs
        exact Or.inr (List.mem_singleton.mp hs)
    · simp only [if_neg h2] at hs
      exact Or.inr (List.mem_singleton.mp hs)
  · simp only [if_neg h1] at hs
    exact Or.inr (List.mem_singleton.mp hs)

theorem enhanceWithBorders_eq (blocks : List Block) (O : Mat) (B : BMat) :
    enhanceWithBorders blocks O B = blocks := by
  unfold enhanceWithBorders
  have hfold : ∀ (l acc : List Block), (l.foldl (fun acc b =>
      if (3 : ℚ) / 10 < calcBorderCompleteness b B then acc ++ [b]
      else acc ++ splitByBorderContours b O B) acc) = acc ++ l := by
    intro l
    induction l with
    | nil => intro acc; simp
    | cons x xs ih =>
      intro acc
      rw [List.foldl_cons]
      by_cases h : (3 : ℚ) / 10 < calcBorderCompleteness x B
      · rw [if_pos h, ih]
        simp
      · rw [if_neg h, ih]
        simp [splitByBorderContours]
  rw [hfold]
  simp

theorem mem_foldl_append {α β : Type} (f : β → List α) (l : List β) :
    ∀ (acc : List α) (x : α),
    x ∈ l.foldl (fun a blk => a ++ f blk) acc → x ∈ acc ∨ ∃ blk ∈ l, x ∈ f blk := by
  induction l with
  | nil => intro acc x hx; exact Or.inl hx
  | cons y ys ih =>
    intro acc x hx
    rw [List.foldl_cons] at hx
    rcases ih _ x hx with hx | ⟨blk, hblk, hxf⟩
    · rcases List.mem_append.mp hx with hx | hx
      · exact Or.inl hx
      · exact Or.inr ⟨y, List.mem_cons_self _ _, hx⟩
    · exact Or.inr ⟨blk, List.mem_cons_of_mem _ hblk, hxf⟩

/-- C1: every block emitted by split_blocks has at least the configured
minimum height and width and a bbox inside the grid:
0 ≤ r0 ≤ r1 ≤ R and 0 ≤ c0 ≤ c1 ≤ C. -/
theorem split_blocks_valid (cfg : ParserConfig) (fmt : FileFormat) (O : Mat)
    (B : Option BMat) (hrect : O.Rect) :
    ∀ b ∈ splitBlocks cfg fmt O B,
      cfg.min_block_height ≤ b.height ∧ cfg.min_block_width ≤ b.width ∧
      b.r0 ≤ b.r1 ∧ b.r1 ≤ O.nRows ∧ b.c0 ≤ b.c1 ∧ b.c1 ≤ O.nCols := by
  intro b hb
  unfold splitBlocks at hb
  by_cases hsz : O.nRows * O.nCols = 0
  · rw [if_pos hsz] at hb
    simp at hb
  · rw [if_neg hsz] at hb
    simp only [List.mem_map] at hb
    obtain ⟨p, hmem, hbeq⟩ := hb
    have hp2 := List.mem_map_of_mem Prod.snd hmem
    rw [List.enum_map_snd] at hp2
    set L := (connectedComponents cfg O).filter (fun b =>
      cfg.min_block_height ≤ b.height ∧ cfg.min_block_width ≤ b.width) with hL
    have hp3 : p.2 ∈ L.foldl (fun acc b => acc ++ mdlSplitDecision cfg b O) [] := by
      rcases fmt with _ | _ | _ <;> rcases B with _ | bm
      all_goals first
        | exact hp2
        | { have hp2' : p.2 ∈ (enhanceWithBorders L O bm).foldl
              (fun acc b => acc ++ mdlSplitDecision cfg b O) [] := hp2
            rw [enhanceWithBorders_eq] at hp2'
            exact hp2' }
    rcases mem_foldl_append (fun blk => mdlSplitDecision cfg blk O) L [] p.2 hp3 with
      hx | ⟨blk, hblk, hxf⟩
    · simp at hx
    · rw [hL] at hblk
      have hfil := List.mem_filter.mp hblk
      have hbbox := connectedComponents_bbox cfg O hrect blk hfil.1
      have hdims : cfg.min_block_height ≤ blk.height ∧
          cfg.min_block_width ≤ blk.width := by
        have := hfil.2
        simpa using this
      have hvalid : ValidBlock cfg O blk := ⟨hdims.1, hdims.2, hbbox⟩
      have hval2 : ValidBlock cfg O p.2 := by
        rcases mdlSplitDecision_mem cfg blk O p.2 hxf with h | h
        · exact trySplitByGaps_valid cfg O blk hvalid p.2 h
        · rw [h]
          exact hvalid
      rw [← hbeq]
      obtain ⟨v1, v2, v3, v4, v5, v6⟩ := hval2
      exact ⟨v1, v2, v3, v4, v5, v6⟩

/-- The block that split_blocks finds on a dense 2 by 2 grid. -/
def blkW : Block := { r0 := 0, r1 := 2, c0 := 0, c1 := 2, block_id := "b1" }

/-- Witness for the C1 theorem: the single block found on a dense 2 by 2
grid satisfies the dimension and bbox bounds. -/
theorem split_blocks_valid_witness :
    cfgW.min_block_height ≤ blkW.height ∧ cfgW.min_block_width ≤ blkW.width ∧
    blkW.r0 ≤ blkW.r1 ∧ blkW.r1 ≤ Mat.nRows [[1, 1], [1, 1]] ∧
    blkW.c0 ≤ blkW.c1 ∧ blkW.c1 ≤ Mat.nCols [[1, 1], [1, 1]] :=
  split_blocks_valid cfgW FileFormat.csv [[1, 1], [1, 1]] none (by decide)
    blkW (by decide)

end ExcelReader
